import Mathlib

/-!
Verification of the BusTub page-cache core components present in the source:
the LRU-K replacer (`src/buffer/lru_k_replacer.cpp`) and the extendible hash
table (`src/container/hash/extendible_hash_table.cpp`).

The C++ state is shallowly embedded:

* `std::map` (used for `frames_` and `lru_timestamps_`) is modelled as an
  association list sorted strictly by key; `begin()` is the head.
* `std::queue` (the per-frame access-timestamp FIFO) is a `List` whose head is
  the queue front and where `push` appends at the back.
* `timestamp_t` is a 64-bit signed integer; it is modelled as `Int`, with
  `std::numeric_limits<timestamp_t>::min()` modelled as `-(2^63)`.
* assertion failures, `std::map::at` on a missing key and out-of-fuel loops
  are modelled as `none` in an `Option`-valued result.
* the `shared_ptr<Bucket>` aliasing of the hash directory is modelled with an
  arena: `buckets` is the list of all allocated buckets and each directory
  slot stores an arena index, so mutating a bucket through one slot is seen
  through every aliased slot.
-/

namespace Bustub

/-! ### Sorted association maps (model of `std::map`) -/

/-- Insert-or-assign into a key-sorted association list; models
`std::map::operator[] = v` (and `emplace` on a missing key). -/
def mapInsert {α β : Type} [LinearOrder α] : List (α × β) → α → β → List (α × β)
  | [], k, v => [(k, v)]
  | p :: rest, k, v =>
    if k < p.1 then (k, v) :: p :: rest
    else if k = p.1 then (k, v) :: rest
    else p :: mapInsert rest k v

/-- Remove the first pair with the given key; models `std::map::erase(key)`
on maps with unique keys. -/
def mapErase {α β : Type} [DecidableEq α] : List (α × β) → α → List (α × β)
  | [], _ => []
  | p :: rest, k => if p.1 = k then rest else p :: mapErase rest k

/-- Lookup by key; models `std::map::find`. -/
def mapLookup {α β : Type} [DecidableEq α] : List (α × β) → α → Option β
  | [], _ => none
  | p :: rest, k => if p.1 = k then some p.2 else mapLookup rest k

/-- The association list is strictly sorted by key (the `std::map`
representation invariant). -/
def keysSorted {α β : Type} [LinearOrder α] (m : List (α × β)) : Prop :=
  List.Pairwise (fun p q => p.1 < q.1) m

instance {α β : Type} [LinearOrder α] (m : List (α × β)) : Decidable (keysSorted m) :=
  List.instDecidablePairwise m

theorem mapLookup_mem {α β : Type} [DecidableEq α] {m : List (α × β)} {k : α} {v : β}
    (h : mapLookup m k = some v) : (k, v) ∈ m := by
  induction m with
  | nil => simp [mapLookup] at h
  | cons p rest ih =>
    by_cases hk : p.1 = k
    · simp [mapLookup, hk] at h
      subst h
      subst hk
      exact List.mem_cons_self _ _
    · simp [mapLookup, hk] at h
      exact List.mem_cons_of_mem _ (ih h)

theorem mem_mapLookup {α β : Type} [LinearOrder α] {m : List (α × β)} {k : α} {v : β}
    (hs : keysSorted m) (h : (k, v) ∈ m) : mapLookup m k = some v := by
  induction m with
  | nil => simp at h
  | cons p rest ih =>
    rcases List.mem_cons.mp h with h | h
    · subst h
      simp [mapLookup]
    · have hlt : p.1 < k := (List.pairwise_cons.mp hs).1 (k, v) h
      have hne : ¬ p.1 = k := ne_of_lt hlt
      simp [mapLookup, hne]
      exact ih (List.pairwise_cons.mp hs).2 h

theorem head_min {α β : Type} [LinearOrder α] {p : α × β} {rest : List (α × β)}
    (hs : keysSorted (p :: rest)) : ∀ q ∈ p :: rest, p.1 ≤ q.1 := by
  intro q hq
  rcases List.mem_cons.mp hq with h | h
  · subst h; exact le_refl _
  · exact le_of_lt ((List.pairwise_cons.mp hs).1 q h)

/-! ### LRU-K replacer state (from `lru_k_replacer.cpp` and its header) -/

/-- Per-frame record: the FIFO of access timestamps (head = front) and the
evictable flag.  Modelled from the spec for the missing header: a new
`FrameStatus{}` has an empty history and is not evictable. -/
structure FrameStatus where
  access_timestamps : List Int
  evictable : Bool
  deriving DecidableEq, Repr

/-- The `LRUKReplacer` state: `frames_` and `lru_timestamps_` are `std::map`s
modelled as key-sorted association lists; `lru_timestamps_` maps the front of
an evictable frame's FIFO to the frame id.  Modelled from the spec for the
missing header: `current_timestamp_` starts at `0` (timestamps come from a
single monotonically increasing logical counter). -/
structure Replacer where
  k : Nat
  replacer_size : Nat
  current_timestamp : Int
  frames : List (Nat × FrameStatus)
  lru_timestamps : List (Int × Nat)
  curr_size : Nat
  deriving DecidableEq, Repr

/-- `std::numeric_limits<timestamp_t>::min()` for the 64-bit signed
timestamp type. -/
def tsMin : Int := -(2 ^ 63)

/-- The K-distance key used by the code: the front of the frame's FIFO
(`access_timestamps_.front()`). -/
def kDistance (fr : FrameStatus) : Int := fr.access_timestamps.headD 0

/-- `LRUKReplacer::LRUKReplacer(num_frames, k)`. -/
def newReplacer (num_frames k : Nat) : Replacer :=
  { k := k, replacer_size := num_frames, current_timestamp := 0,
    frames := [], lru_timestamps := [], curr_size := 0 }

/-- `LRUKReplacer::RemoveInternal`.  `none` models the
`assert(frame.evictable_)` failing. -/
def removeInternal (s : Replacer) (frame_id : Nat) : Option Replacer :=
  match mapLookup s.frames frame_id with
  | none => some s
  | some fr =>
    if fr.evictable then
      some { s with
        lru_timestamps := mapErase s.lru_timestamps (kDistance fr),
        curr_size := s.curr_size - 1,
        frames := mapErase s.frames frame_id }
    else none

/-- `LRUKReplacer::Evict`.  The returned `Option Nat` is the C++ boolean
result together with the out-parameter: `some id` for `true`, `none` for
`false`. -/
def evict (s : Replacer) : Option (Replacer × Option Nat) :=
  match s.lru_timestamps with
  | [] => some (s, none)
  | (_, id) :: _ => (removeInternal s id).map (fun s2 => (s2, some id))

/-- `LRUKReplacer::RecordAccess`.  `none` models the
`assert(frame_id < replacer_size_)` failing. -/
def recordAccess (s : Replacer) (frame_id : Nat) : Option Replacer :=
  if frame_id < s.replacer_size then
    let fr :=
      match mapLookup s.frames frame_id with
      | some fr => fr
      | none => { access_timestamps := [tsMin + s.current_timestamp], evictable := false }
    let ts := s.current_timestamp
    let q := fr.access_timestamps ++ [ts]
    if q.length > s.k then
      let old := q.headD 0
      let q2 := q.tail
      let lru2 :=
        if fr.evictable then
          mapInsert (mapErase s.lru_timestamps old) (q2.headD 0) frame_id
        else s.lru_timestamps
      some { s with
        current_timestamp := ts + 1,
        frames := mapInsert s.frames frame_id { fr with access_timestamps := q2 },
        lru_timestamps := lru2 }
    else
      some { s with
        current_timestamp := ts + 1,
        frames := mapInsert s.frames frame_id { fr with access_timestamps := q } }
  else none

/-- `LRUKReplacer::SetEvictable`.  `none` models `frames_.at(frame_id)`
raising `std::out_of_range` on an untracked frame. -/
def setEvictable (s : Replacer) (frame_id : Nat) (set_evictable : Bool) : Option Replacer :=
  match mapLookup s.frames frame_id with
  | none => none
  | some fr =>
    let front := kDistance fr
    if !fr.evictable && set_evictable then
      some { s with
        curr_size := s.curr_size + 1,
        lru_timestamps := mapInsert s.lru_timestamps front frame_id,
        frames := mapInsert s.frames frame_id { fr with evictable := set_evictable } }
    else if fr.evictable && !set_evictable then
      some { s with
        lru_timestamps := mapErase s.lru_timestamps front,
        curr_size := s.curr_size - 1,
        frames := mapInsert s.frames frame_id { fr with evictable := set_evictable } }
    else
      some { s with
        frames := mapInsert s.frames frame_id { fr with evictable := set_evictable } }

/-- `LRUKReplacer::Remove`. -/
def removeFrame (s : Replacer) (frame_id : Nat) : Option Replacer :=
  removeInternal s frame_id

/-- `LRUKReplacer::Size`. -/
def replacerSize (s : Replacer) : Nat := s.curr_size

/-- Well-formedness of a replacer state, maintained by the C++ code: both
maps are sorted, every tracked frame has a non-empty history, and
`lru_timestamps_` contains exactly the evictable frames keyed by the front of
their FIFO. -/
def WF (s : Replacer) : Prop :=
  keysSorted s.frames ∧ keysSorted s.lru_timestamps ∧
  (∀ p ∈ s.frames, p.2.access_timestamps ≠ []) ∧
  (∀ p ∈ s.frames, p.2.evictable = true → (kDistance p.2, p.1) ∈ s.lru_timestamps) ∧
  (∀ q ∈ s.lru_timestamps,
    ∃ p ∈ s.frames, p.1 = q.2 ∧ p.2.evictable = true ∧ kDistance p.2 = q.1)

instance (s : Replacer) : Decidable (WF s) := by
  unfold WF
  infer_instance

theorem headD_mem {l : List Int} (h : l ≠ []) : l.headD 0 ∈ l := by
  cases l with
  | nil => exact absurd rfl h
  | cons a rest => exact List.mem_cons_self _ _

/-- Shared core of the eviction claims: if any tracked frame is evictable,
`Evict` succeeds and removes the evictable frame with minimal front
timestamp from both maps. -/
theorem evict_min (s : Replacer) (hwf : WF s) (f : Nat × FrameStatus)
    (hf : f ∈ s.frames) (hev : f.2.evictable = true) :
    ∃ g gfr s2, evict s = some (s2, some g) ∧ (g, gfr) ∈ s.frames ∧
      gfr.evictable = true ∧
      (∀ p ∈ s.frames, p.2.evictable = true → kDistance gfr ≤ kDistance p.2) ∧
      s2.frames = mapErase s.frames g ∧
      s2.lru_timestamps = mapErase s.lru_timestamps (kDistance gfr) ∧
      s2.curr_size = s.curr_size - 1 := by
  obtain ⟨hfs, hls, -, hfwd, hbwd⟩ := hwf
  cases hl : s.lru_timestamps with
  | nil =>
    have hmem := hfwd f hf hev
    rw [hl] at hmem
    exact absurd hmem (List.not_mem_nil _)
  | cons q rest =>
    obtain ⟨t, g⟩ := q
    rw [← hl]
    obtain ⟨⟨pid, pfr⟩, hp, hpid, hpev, hpk⟩ :=
      hbwd (t, g) (by rw [hl]; exact List.mem_cons_self _ _)
    have hpid2 : pid = g := hpid
    subst hpid2
    have hpk2 : kDistance pfr = t := hpk
    have hpev2 : pfr.evictable = true := hpev
    have hlook : mapLookup s.frames pid = some pfr := mem_mapLookup hfs hp
    have hrem : removeInternal s pid = some
        { s with
            lru_timestamps := mapErase s.lru_timestamps (kDistance pfr),
            curr_size := s.curr_size - 1,
            frames := mapErase s.frames pid } := by
      unfold removeInternal
      rw [hlook]
      simp [hpev2]
    have hev2 : evict s = some
        ({ s with
            lru_timestamps := mapErase s.lru_timestamps (kDistance pfr),
            curr_size := s.curr_size - 1,
            frames := mapErase s.frames pid }, some pid) := by
      unfold evict
      nth_rewrite 1 [hl]
      simp [hrem]
    refine ⟨pid, pfr, _, hev2, hp, hpev2, ?_, rfl, rfl, rfl⟩
    intro p2 hp2 hev22
    have hmem := hfwd p2 hp2 hev22
    rw [hl] at hmem
    rw [hl] at hls
    have := head_min hls _ hmem
    rw [hpk2]
    exact this

/-- C1: whenever at least one tracked frame is evictable, `Evict` returns
`true` with the evictable frame of smallest K-distance (the front of its
bounded history, i.e. its K-th most recent access), and deletes that frame
from all replacer state; `Evict` returns `false` iff no tracked frame is
evictable, in which case the state is unchanged. -/
theorem lruk_evict_spec (s : Replacer) (hwf : WF s) :
    ((∀ p ∈ s.frames, p.2.evictable = false) → evict s = some (s, none)) ∧
    (∀ f ∈ s.frames, f.2.evictable = true →
      ∃ g gfr s2, evict s = some (s2, some g) ∧ (g, gfr) ∈ s.frames ∧
        gfr.evictable = true ∧
        (∀ p ∈ s.frames, p.2.evictable = true → kDistance gfr ≤ kDistance p.2) ∧
        s2.frames = mapErase s.frames g ∧
        s2.lru_timestamps = mapErase s.lru_timestamps (kDistance gfr) ∧
        s2.curr_size = s.curr_size - 1) := by
  refine ⟨fun hall => ?_, fun f hf hev => evict_min s hwf f hf hev⟩
  obtain ⟨hfs, hls, -, hfwd, hbwd⟩ := hwf
  cases hl : s.lru_timestamps with
  | nil =>
    unfold evict
    rw [hl]
  | cons q rest =>
    obtain ⟨p, hp, -, hpev, -⟩ := hbwd q (by rw [hl]; exact List.mem_cons_self _ _)
    rw [hall p hp] at hpev
    exact absurd hpev (by simp)

/-- Scenario L1 from the spec, adjusted to a capacity that passes the
`frame_id < replacer_size_` assertion: `K = 2`, frames `1,2,3` accessed
`1,2,3,1,2`, then all marked evictable. -/
def sL1 : Replacer :=
  (do
    let s1 ← recordAccess (newReplacer 4 2) 1
    let s2 ← recordAccess s1 2
    let s3 ← recordAccess s2 3
    let s4 ← recordAccess s3 1
    let s5 ← recordAccess s4 2
    let s6 ← setEvictable s5 1 true
    let s7 ← setEvictable s6 2 true
    setEvictable s7 3 true).getD (newReplacer 4 2)

/-- Witness for C1 at the concrete scenario-L1 state: frame 3 (single
access, sentinel-biased K-distance) is evicted first. -/
theorem lruk_evict_spec_witness :
    WF sL1 ∧ (3, (⟨[tsMin + 2, 2], true⟩ : FrameStatus)) ∈ sL1.frames ∧
    (∃ g gfr s2, evict sL1 = some (s2, some g) ∧ (g, gfr) ∈ sL1.frames ∧
      gfr.evictable = true ∧
      (∀ p ∈ sL1.frames, p.2.evictable = true → kDistance gfr ≤ kDistance p.2) ∧
      s2.frames = mapErase sL1.frames g ∧
      s2.lru_timestamps = mapErase sL1.lru_timestamps (kDistance gfr) ∧
      s2.curr_size = sL1.curr_size - 1) :=
  ⟨by decide, by decide,
    (lruk_evict_spec sL1 (by decide)).2 (3, (⟨[tsMin + 2, 2], true⟩ : FrameStatus))
      (by decide) (by decide)⟩

/-- C10: `Remove` on an untracked frame is a silent no-op returning the
state unchanged; `Remove` on a tracked non-evictable frame trips the
assertion (modelled as `none`); `Remove` on a tracked evictable frame
does not trip it. -/
theorem lruk_remove_untracked (s : Replacer) (fid : Nat) :
    (mapLookup s.frames fid = none → removeFrame s fid = some s) ∧
    (∀ fr, mapLookup s.frames fid = some fr → fr.evictable = false →
      removeFrame s fid = none) ∧
    (∀ fr, mapLookup s.frames fid = some fr → fr.evictable = true →
      ∃ s2, removeFrame s fid = some s2) := by
  refine ⟨fun h => ?_, fun fr h hev => ?_, fun fr h hev => ?_⟩
  · simp [removeFrame, removeInternal, h]
  · simp [removeFrame, removeInternal, h, hev]
  · refine ⟨{ s with
        lru_timestamps := mapErase s.lru_timestamps (kDistance fr),
        curr_size := s.curr_size - 1,
        frames := mapErase s.frames fid }, ?_⟩
    simp [removeFrame, removeInternal, h, hev]

/-- Relation between a frame record and the frame's full history of real
access timestamps `hist` (oldest first): `RecordAccess` seeds a sentinel
`tsMin + first-access-time` and keeps at most `k` entries, so a frame with
fewer than `k` accesses retains the sentinel at the front and a frame with
at least `k` accesses retains exactly its last `k` access timestamps. -/
def HistSpec (k : Nat) (cur : Int) (fr : FrameStatus) (hist : List Int) : Prop :=
  hist ≠ [] ∧ List.Pairwise (· < ·) hist ∧ (∀ t ∈ hist, 0 ≤ t ∧ t < cur) ∧
  fr.access_timestamps =
    if hist.length < k then (tsMin + hist.headD 0) :: hist
    else hist.drop (hist.length - k)

instance (k : Nat) (cur : Int) (fr : FrameStatus) (hist : List Int) :
    Decidable (HistSpec k cur fr hist) := by
  unfold HistSpec
  infer_instance

theorem kDistance_of_short {k : Nat} {cur : Int} {fr : FrameStatus} {hist : List Int}
    (hs : HistSpec k cur fr hist) (hlt : hist.length < k) :
    kDistance fr = tsMin + hist.headD 0 := by
  obtain ⟨-, -, -, hq⟩ := hs
  rw [if_pos hlt] at hq
  simp [kDistance, hq]

theorem kDistance_of_long {k : Nat} {cur : Int} {fr : FrameStatus} {hist : List Int}
    (hs : HistSpec k cur fr hist) (hk : 1 ≤ k) (hge : ¬ hist.length < k) :
    0 ≤ kDistance fr ∧ kDistance fr < cur := by
  obtain ⟨hne, -, hbd, hq⟩ := hs
  rw [if_neg hge] at hq
  have hlen : (hist.drop (hist.length - k)).length = k := by
    rw [List.length_drop]
    omega
  have hdropne : hist.drop (hist.length - k) ≠ [] := by
    intro h
    rw [h] at hlen
    simp at hlen
    omega
  have hmem : (hist.drop (hist.length - k)).headD 0 ∈ hist :=
    List.drop_subset _ _ (headD_mem hdropne)
  have := hbd _ hmem
  constructor
  · rw [kDistance, hq]
    exact this.1
  · rw [kDistance, hq]
    exact this.2

theorem sentinel_neg {cur h0 : Int} (_h1 : 0 ≤ h0) (h2 : h0 < cur)
    (h3 : cur ≤ 2 ^ 63) : tsMin + h0 < 0 := by
  have he : (2 : Int) ^ 63 = 9223372036854775808 := by norm_num
  rw [tsMin, he]
  omega

/-- C3: among evictable frames, one with fewer than K recorded accesses is
always evicted before any evictable frame with at least K accesses, and
among the fewer-than-K frames `Evict` picks the one with the earliest
first-ever access timestamp.  `HistSpec` ties each tracked frame's record
to its real access history; `current_timestamp ≤ 2^63` rules out overflow
of the 64-bit sentinel arithmetic. -/
theorem lruk_sparse_order (s : Replacer) (hwf : WF s) (hk : 1 ≤ s.k)
    (hcur : s.current_timestamp ≤ 2 ^ 63)
    (hall : ∀ p ∈ s.frames, ∃ hist, HistSpec s.k s.current_timestamp p.2 hist)
    (f : Nat × FrameStatus) (hf : f ∈ s.frames) (hev : f.2.evictable = true)
    (histf : List Int) (hhf : HistSpec s.k s.current_timestamp f.2 histf)
    (hflt : histf.length < s.k) :
    ∃ g gfr s2 histg, evict s = some (s2, some g) ∧ (g, gfr) ∈ s.frames ∧
      gfr.evictable = true ∧ HistSpec s.k s.current_timestamp gfr histg ∧
      histg.length < s.k ∧
      (∀ p ∈ s.frames, p.2.evictable = true →
        ∀ histp, HistSpec s.k s.current_timestamp p.2 histp →
          histp.length < s.k → histg.headD 0 ≤ histp.headD 0) := by
  obtain ⟨g, gfr, s2, he, hgmem, hgev, hmin, -, -, -⟩ := evict_min s hwf f hf hev
  obtain ⟨histg, hhg⟩ := hall (g, gfr) hgmem
  have hsnd : ((g, gfr) : Nat × FrameStatus).2 = gfr := rfl
  rw [hsnd] at hhg
  have hkf : kDistance f.2 = tsMin + histf.headD 0 := kDistance_of_short hhf hflt
  have hfneg : kDistance f.2 < 0 := by
    obtain ⟨hne, -, hbd, -⟩ := hhf
    have hm := hbd _ (headD_mem hne)
    rw [hkf]
    exact sentinel_neg hm.1 hm.2 hcur
  have hglt : histg.length < s.k := by
    by_contra hge
    have := (kDistance_of_long hhg hk hge).1
    have hle := hmin f hf hev
    omega
  have hkg : kDistance gfr = tsMin + histg.headD 0 := kDistance_of_short hhg hglt
  refine ⟨g, gfr, s2, histg, he, hgmem, hgev, hhg, hglt, ?_⟩
  intro p hp hpev histp hhp hplt
  have hkp : kDistance p.2 = tsMin + histp.headD 0 := kDistance_of_short hhp hplt
  have := hmin p hp hpev
  rw [hkg, hkp] at this
  omega

/-- Witness for C3 at the scenario-L1 state: frame 3 has one access (history
`[2]`), frames 1 and 2 have two accesses each, and frame 3 is evicted. -/
theorem lruk_sparse_order_witness :
    WF sL1 ∧ 1 ≤ sL1.k ∧ sL1.current_timestamp ≤ 2 ^ 63 ∧
    HistSpec sL1.k sL1.current_timestamp (⟨[tsMin + 2, 2], true⟩ : FrameStatus) [2] ∧
    (∃ g gfr s2 histg, evict sL1 = some (s2, some g) ∧ (g, gfr) ∈ sL1.frames ∧
      gfr.evictable = true ∧ HistSpec sL1.k sL1.current_timestamp gfr histg ∧
      histg.length < sL1.k ∧
      (∀ p ∈ sL1.frames, p.2.evictable = true →
        ∀ histp, HistSpec sL1.k sL1.current_timestamp p.2 histp →
          histp.length < sL1.k → histg.headD 0 ≤ histp.headD 0)) :=
  ⟨by decide, by decide, by decide, by decide,
    lruk_sparse_order sL1 (by decide) (by decide) (by decide)
      (by
        intro p hp
        have hfr : sL1.frames =
            [(1, (⟨[0, 3], true⟩ : FrameStatus)), (2, (⟨[1, 4], true⟩ : FrameStatus)),
              (3, (⟨[tsMin + 2, 2], true⟩ : FrameStatus))] := by decide
        rw [hfr] at hp
        simp only [List.mem_cons, List.not_mem_nil, or_false] at hp
        rcases hp with rfl | rfl | rfl
        · exact ⟨[0, 3], by decide⟩
        · exact ⟨[1, 4], by decide⟩
        · exact ⟨[2], by decide⟩)
      (3, (⟨[tsMin + 2, 2], true⟩ : FrameStatus)) (by decide) (by decide)
      [2] (by decide) (by decide)⟩

/-- A state with one tracked, non-evictable frame (frame 0 accessed once). -/
def sOneFrame : Replacer :=
  (recordAccess (newReplacer 2 2) 0).getD (newReplacer 2 2)

/-- Witness for C10: on `sOneFrame`, removing the untracked frame 1 is a
no-op and removing the tracked non-evictable frame 0 asserts. -/
theorem lruk_remove_untracked_witness :
    mapLookup sOneFrame.frames 1 = none ∧ removeFrame sOneFrame 1 = some sOneFrame ∧
    removeFrame sOneFrame 0 = none :=
  ⟨by decide,
    (lruk_remove_untracked sOneFrame 1).1 (by decide),
    (lruk_remove_untracked sOneFrame 0).2.1 ⟨[tsMin, 0], false⟩ (by decide) (by decide)⟩

/-! ### Extendible hash table (from `extendible_hash_table.cpp`)

`K` is the key type with decidable equality (`operator==`); `hash : K → Nat`
models `std::hash<K>` (a `size_t`-valued function).  `IndexOf` computes
`hash(k) & ((1 << global_depth_) - 1)`, i.e. `hash k % 2 ^ global_depth`.
Buckets are shared between directory slots through `shared_ptr`; the model
keeps all allocated buckets in an arena list `buckets` and stores arena
indices in the directory, so an in-place bucket mutation is visible through
every slot that references it. -/

/-- One bucket: capacity `size_`, local depth `depth_` and the `std::list`
of (key, value) pairs in insertion order. -/
structure Bucket (K V : Type) where
  size_ : Nat
  depth_ : Nat
  list_ : List (K × V)
  deriving DecidableEq, Repr

instance {K V : Type} : Inhabited (Bucket K V) := ⟨⟨0, 0, []⟩⟩

/-- The hash-table state.  `num_buckets` mirrors the `num_buckets_` field:
initialised to 1 by the constructor and (exactly as in the source) never
updated afterwards. -/
structure EHT (K V : Type) where
  global_depth : Nat
  bucket_size : Nat
  num_buckets : Nat
  buckets : List (Bucket K V)
  dir : List Nat
  deriving DecidableEq, Repr

section ExtendibleHashTable

variable {K V : Type}

/-- Directory slot `j` (an arena index). -/
def dirGet (s : EHT K V) (j : Nat) : Nat := s.dir.getD j 0

/-- The bucket at arena index `i`. -/
def bkt (s : EHT K V) (i : Nat) : Bucket K V := s.buckets.getD i default

/-- `ExtendibleHashTable::ExtendibleHashTable(bucket_size)`: depth 0, one
directory slot, one empty bucket shared by every slot.  The initial bucket's
depth comes from the `Bucket` constructor's default argument in the missing
header; modelled from the spec: scenario H1 ("depth grows from 0") and the
`2^(global_depth - local_depth)` slot-count invariant force it to be 0. -/
def newEHT (K V : Type) (bucket_size : Nat) : EHT K V :=
  { global_depth := 0, bucket_size := bucket_size, num_buckets := 1,
    buckets := [{ size_ := bucket_size, depth_ := 0, list_ := [] }],
    dir := [0] }

/-- `ExtendibleHashTable::IndexOf`. -/
def indexOf (hash : K → Nat) (s : EHT K V) (k : K) : Nat :=
  hash k % 2 ^ s.global_depth

/-- `ExtendibleHashTable::GetGlobalDepth`. -/
def getGlobalDepth (s : EHT K V) : Nat := s.global_depth

/-- `ExtendibleHashTable::GetLocalDepth(dir_index)`. -/
def getLocalDepth (s : EHT K V) (dir_index : Nat) : Nat :=
  (bkt s (dirGet s dir_index)).depth_

/-- `ExtendibleHashTable::GetNumBuckets`. -/
def getNumBuckets (s : EHT K V) : Nat := s.num_buckets

/-- `Bucket::Find`: first pair with an equal key, if any. -/
def bucketFind [DecidableEq K] (b : Bucket K V) (k : K) : Option V :=
  (b.list_.find? (fun p => p.1 = k)).map Prod.snd

/-- Erase the first pair whose key equals `k` (`std::list::erase` at the
`find_if` iterator). -/
def listEraseFirst [DecidableEq K] : List (K × V) → K → List (K × V)
  | [], _ => []
  | p :: rest, k => if p.1 = k then rest else p :: listEraseFirst rest k

/-- `Bucket::Remove`: the boolean result and the updated bucket. -/
def bucketRemove [DecidableEq K] (b : Bucket K V) (k : K) : Bool × Bucket K V :=
  if b.list_.any (fun p => p.1 = k) then
    (true, { b with list_ := listEraseFirst b.list_ k })
  else (false, b)

/-- Overwrite the value of the first pair whose key equals `k`
(`iter->second = value`; the stored key object is kept). -/
def listOverwrite [DecidableEq K] : List (K × V) → K → V → List (K × V)
  | [], _, _ => []
  | p :: rest, k, v => if p.1 = k then (p.1, v) :: rest else p :: listOverwrite rest k v

/-- `Bucket::IsFull` (inline in the header; modelled from the spec's
"bounded in cardinality by `bucket_size`": full iff at capacity). -/
def bucketIsFull (b : Bucket K V) : Bool := b.list_.length = b.size_

/-- `Bucket::Insert`: overwrite an existing binding, else append when not
full, else fail. -/
def bucketInsert [DecidableEq K] (b : Bucket K V) (k : K) (v : V) : Bool × Bucket K V :=
  if b.list_.any (fun p => p.1 = k) then
    (true, { b with list_ := listOverwrite b.list_ k v })
  else if bucketIsFull b then (false, b)
  else (true, { b with list_ := b.list_ ++ [(k, v)] })

/-- `ExtendibleHashTable::Find`.  `some v` models `(true, v)`; `none`
models `false`. -/
def find [DecidableEq K] (hash : K → Nat) (s : EHT K V) (k : K) : Option V :=
  bucketFind (bkt s (dirGet s (indexOf hash s k))) k

/-- `ExtendibleHashTable::Remove`. -/
def remove [DecidableEq K] (hash : K → Nat) (s : EHT K V) (k : K) : Bool × EHT K V :=
  let idx := dirGet s (indexOf hash s k)
  let r := bucketRemove (bkt s idx) k
  (r.1, { s with buckets := s.buckets.set idx r.2 })

/-- The directory-update loop of `RedistributeBucket`:
`for (i = start; i < dir.size(); i += step) dir[i] = newIdx`.  The fuel
`dir.length` is enough for any `step ≥ 1`. -/
def updateSlotsAux : Nat → List Nat → Nat → Nat → Nat → List Nat
  | 0, dir, _, _, _ => dir
  | fuel + 1, dir, newIdx, i, step =>
    if i < dir.length then updateSlotsAux fuel (dir.set i newIdx) newIdx (i + step) step
    else dir

def updateSlots (dir : List Nat) (newIdx i step : Nat) : List Nat :=
  updateSlotsAux dir.length dir newIdx i step

/-- `ExtendibleHashTable::RedistributeBucket` on the bucket at arena index
`bIdx`.  `none` models the `assert(bucket->GetItems().size() != 0)`
failing.  Splits the bucket on hash bit `depth`, doubles the directory if
needed, and repoints the high-bit half of the bucket's slots at the new
bucket (arena index `s.buckets.length`). -/
def redistributeBucket (hash : K → Nat) (s : EHT K V) (bIdx : Nat) : Option (EHT K V) :=
  let bucket := bkt s bIdx
  match bucket.list_ with
  | [] => none
  | front :: _ =>
    let depth := bucket.depth_
    let index_bits := hash front.1 % 2 ^ depth
    let high_bit := 2 ^ depth
    let stay := bucket.list_.filter (fun p => !(hash p.1).testBit depth)
    let move := bucket.list_.filter (fun p => (hash p.1).testBit depth)
    let s1 :=
      if depth = s.global_depth then
        { s with dir := s.dir ++ s.dir, global_depth := s.global_depth + 1 }
      else s
    let newIdx := s.buckets.length
    some { s1 with
      buckets := (s1.buckets.set bIdx { bucket with depth_ := depth + 1, list_ := stay }) ++
        [{ size_ := s.bucket_size, depth_ := depth + 1, list_ := move }],
      dir := updateSlots s1.dir newIdx (index_bits + high_bit) (2 * high_bit) }

/-- `ExtendibleHashTable::Insert`: the `while (true)` loop, with explicit
fuel; `none` models non-termination within the given fuel (or the split
assertion failing). -/
def insertLoop [DecidableEq K] (hash : K → Nat) : Nat → EHT K V → K → V → Option (EHT K V)
  | 0, _, _, _ => none
  | fuel + 1, s, k, v =>
    let idx := dirGet s (indexOf hash s k)
    let r := bucketInsert (bkt s idx) k v
    if r.1 then some { s with buckets := s.buckets.set idx r.2 }
    else
      match redistributeBucket hash s idx with
      | none => none
      | some s2 => insertLoop hash fuel s2 k v

end ExtendibleHashTable

/-! ### Arithmetic helpers for the split proofs -/

theorem mod_pow_succ (x d : Nat) :
    x % 2 ^ (d + 1) = x % 2 ^ d + 2 ^ d * (x / 2 ^ d % 2) := by
  have h : (2 : Nat) ^ (d + 1) = 2 ^ d * 2 := by ring
  rw [h, Nat.mod_mul]

theorem mod_pow_succ_of_testBit_true {x : Nat} (d : Nat) (h : x.testBit d = true) :
    x % 2 ^ (d + 1) = x % 2 ^ d + 2 ^ d := by
  rw [Nat.testBit_to_div_mod] at h
  simp only [decide_eq_true_eq] at h
  rw [mod_pow_succ, h, Nat.mul_one]

theorem mod_pow_succ_of_testBit_false {x : Nat} (d : Nat) (h : x.testBit d = false) :
    x % 2 ^ (d + 1) = x % 2 ^ d := by
  rw [Nat.testBit_to_div_mod] at h
  simp only [decide_eq_false_iff_not] at h
  have h2 : x / 2 ^ d % 2 = 0 := by omega
  rw [mod_pow_succ, h2, Nat.mul_zero, Nat.add_zero]

theorem mod_pow_of_mod_pow_succ {x y d : Nat} (h : x % 2 ^ (d + 1) = y % 2 ^ (d + 1)) :
    x % 2 ^ d = y % 2 ^ d := by
  have hd : (2 : Nat) ^ d ∣ 2 ^ (d + 1) := pow_dvd_pow 2 (Nat.le_succ d)
  rw [← Nat.mod_mod_of_dvd x hd, ← Nat.mod_mod_of_dvd y hd, h]

/-- Membership in the arithmetic progression `t, t + M, t + 2M, …` is the
residue condition `j % M = t` (for `t < M`). -/
theorem progression_iff {M t j : Nat} (h : t < M) :
    (t ≤ j ∧ (j - t) % M = 0) ↔ j % M = t := by
  constructor
  · rintro ⟨h1, h2⟩
    obtain ⟨q, hq⟩ := Nat.dvd_of_mod_eq_zero h2
    have hj2 : j = t + M * q := by omega
    rw [hj2, Nat.add_mul_mod_self_left]
    exact Nat.mod_eq_of_lt h
  · intro hj
    have h1 : t ≤ j := by
      rw [← hj]
      exact Nat.mod_le j M
    have hdm := Nat.div_add_mod j M
    refine ⟨h1, ?_⟩
    have h2 : j - t = M * (j / M) := by omega
    rw [h2]
    exact Nat.mul_mod_right _ _

theorem countP_range_eq (m r : Nat) :
    (List.range m).countP (fun x => x = r) = if r < m then 1 else 0 := by
  induction m with
  | zero => simp
  | succ n ih =>
    rw [List.range_succ, List.countP_append, ih]
    rcases Nat.lt_trichotomy r n with h | h | h
    · have h1 : r < n + 1 := by omega
      have h2 : ¬ n = r := by omega
      simp [List.countP_cons, h, h1, h2]
    · subst h
      simp [List.countP_cons, Nat.lt_irrefl, Nat.lt_succ_self]
    · have h1 : ¬ r < n := by omega
      have h2 : ¬ r < n + 1 := by omega
      have h3 : ¬ n = r := by omega
      simp [List.countP_cons, h1, h2, h3]

theorem countP_range_mod (n m r : Nat) (hr : r < m) :
    (List.range (n * m)).countP (fun x => x % m = r) = n := by
  induction n with
  | zero => simp
  | succ n2 ih =>
    have hmul : (n2 + 1) * m = n2 * m + m := by ring
    rw [hmul, List.range_add, List.countP_append, ih, List.countP_map]
    have hcong : List.countP ((fun x => decide (x % m = r)) ∘ fun x => n2 * m + x)
        (List.range m) = List.countP (fun x => decide (x = r)) (List.range m) := by
      apply List.countP_congr
      intro x hx
      have hxm : x < m := List.mem_range.mp hx
      have hmod : (n2 * m + x) % m = x := by
        rw [Nat.mul_comm, Nat.mul_add_mod]
        exact Nat.mod_eq_of_lt hxm
      simp [Function.comp, hmod]
    rw [hcong, countP_range_eq, if_pos hr]

/-! ### The directory-update loop -/

theorem updateSlotsAux_length (fuel : Nat) :
    ∀ (dir : List Nat) (newIdx i step : Nat),
      (updateSlotsAux fuel dir newIdx i step).length = dir.length := by
  induction fuel with
  | zero => intro dir newIdx i step; rfl
  | succ n ih =>
    intro dir newIdx i step
    unfold updateSlotsAux
    by_cases h : i < dir.length
    · rw [if_pos h, ih, List.length_set]
    · rw [if_neg h]

theorem updateSlotsAux_getD (fuel : Nat) :
    ∀ (dir : List Nat) (newIdx i step j : Nat), 1 ≤ step → dir.length ≤ i + fuel →
      j < dir.length →
      (updateSlotsAux fuel dir newIdx i step).getD j 0 =
        if i ≤ j ∧ (j - i) % step = 0 then newIdx else dir.getD j 0 := by
  induction fuel with
  | zero =>
    intro dir newIdx i step j hstep hfuel hj
    have : ¬ (i ≤ j ∧ (j - i) % step = 0) := by omega
    rw [if_neg this]
    rfl
  | succ n ih =>
    intro dir newIdx i step j hstep hfuel hj
    unfold updateSlotsAux
    by_cases h : i < dir.length
    · rw [if_pos h]
      rw [ih (dir.set i newIdx) newIdx (i + step) step j hstep
        (by rw [List.length_set]; omega) (by rw [List.length_set]; exact hj)]
      by_cases hc : i ≤ j ∧ (j - i) % step = 0
      · rw [if_pos hc]
        by_cases hji : j = i
        · subst hji
          have : ¬ (j + step ≤ j ∧ (j - (j + step)) % step = 0) := by omega
          rw [if_neg this, List.getD_eq_getElem?_getD, List.getElem?_set_self hj]
          rfl
        · have hlt : i + step ≤ j := by
            rcases hc with ⟨h1, h2⟩
            rcases Nat.lt_or_ge (j - i) step with hs | hs
            · have : j - i = 0 := by
                rcases Nat.eq_zero_or_pos (j - i) with h0 | h0
                · exact h0
                · rw [Nat.mod_eq_of_lt hs] at h2
                  omega
              omega
            · omega
          have hmod : (j - (i + step)) % step = 0 := by
            have : j - i = (j - (i + step)) + step := by omega
            rcases hc with ⟨-, h2⟩
            rw [this, Nat.add_mod_right] at h2
            exact h2
          rw [if_pos ⟨hlt, hmod⟩]
      · rw [if_neg hc]
        have hc2 : ¬ (i + step ≤ j ∧ (j - (i + step)) % step = 0) := by
          rintro ⟨h1, h2⟩
          apply hc
          refine ⟨by omega, ?_⟩
          have : j - i = (j - (i + step)) + step := by omega
          rw [this, Nat.add_mod_right]
          exact h2
        rw [if_neg hc2]
        have hji : ¬ i = j := by
          rintro rfl
          exact hc ⟨le_refl _, by simp⟩
        rw [List.getD_eq_getElem?_getD, List.getElem?_set_ne hji,
          ← List.getD_eq_getElem?_getD]
    · rw [if_neg h]
      have : ¬ (i ≤ j ∧ (j - i) % step = 0) := by omega
      rw [if_neg this]

theorem updateSlots_length (dir : List Nat) (newIdx i step : Nat) :
    (updateSlots dir newIdx i step).length = dir.length :=
  updateSlotsAux_length _ _ _ _ _

theorem updateSlots_getD (dir : List Nat) (newIdx i step j : Nat)
    (hstep : 1 ≤ step) (hj : j < dir.length) :
    (updateSlots dir newIdx i step).getD j 0 =
      if i ≤ j ∧ (j - i) % step = 0 then newIdx else dir.getD j 0 :=
  updateSlotsAux_getD _ _ _ _ _ _ hstep (by omega) hj

/-! ### The directory invariant -/

section ExtendibleHashTableInv

variable {K V : Type}

/-- The structural invariant of the extendible hash table (spec §3):
the directory has `2^global_depth` slots, slots hold valid arena indices,
every referenced bucket has `local_depth ≤ global_depth`, capacity
`bucket_size` and at most `bucket_size` entries, two slots reference the
same bucket iff they agree on the bucket's low `local_depth` bits, every
key in a bucket agrees with the bucket's slots on those bits, and keys
within a bucket are distinct. -/
def Inv (hash : K → Nat) (s : EHT K V) : Prop :=
  s.dir.length = 2 ^ s.global_depth ∧
  1 ≤ s.bucket_size ∧
  (∀ j, j < 2 ^ s.global_depth → dirGet s j < s.buckets.length) ∧
  (∀ j, j < 2 ^ s.global_depth → (bkt s (dirGet s j)).depth_ ≤ s.global_depth) ∧
  (∀ j, j < 2 ^ s.global_depth → (bkt s (dirGet s j)).size_ = s.bucket_size) ∧
  (∀ j, j < 2 ^ s.global_depth → (bkt s (dirGet s j)).list_.length ≤ s.bucket_size) ∧
  (∀ j, j < 2 ^ s.global_depth → ∀ j2, j2 < 2 ^ s.global_depth →
    (j2 % 2 ^ (bkt s (dirGet s j)).depth_ = j % 2 ^ (bkt s (dirGet s j)).depth_ ↔
      dirGet s j2 = dirGet s j)) ∧
  (∀ j, j < 2 ^ s.global_depth → ∀ p ∈ (bkt s (dirGet s j)).list_,
    hash p.1 % 2 ^ (bkt s (dirGet s j)).depth_ = j % 2 ^ (bkt s (dirGet s j)).depth_) ∧
  (∀ j, j < 2 ^ s.global_depth → ((bkt s (dirGet s j)).list_.map Prod.fst).Nodup)

instance [DecidableEq K] (hash : K → Nat) (s : EHT K V) : Decidable (Inv hash s) := by
  unfold Inv
  infer_instance

/-- The state built by `RedistributeBucket` once the doubling branch has
been resolved: `gd2`/`dir1` are the (possibly doubled) global depth and
directory, `r` the low-depth bits of the split bucket's first key. -/
def splitState (hash : K → Nat) (s : EHT K V) (bIdx gd2 : Nat) (dir1 : List Nat)
    (r : Nat) : EHT K V :=
  { global_depth := gd2, bucket_size := s.bucket_size, num_buckets := s.num_buckets,
    buckets := (s.buckets.set bIdx
        { size_ := (bkt s bIdx).size_, depth_ := (bkt s bIdx).depth_ + 1,
          list_ := (bkt s bIdx).list_.filter
            (fun p => !(hash p.1).testBit (bkt s bIdx).depth_) }) ++
      [{ size_ := s.bucket_size, depth_ := (bkt s bIdx).depth_ + 1,
         list_ := (bkt s bIdx).list_.filter
           (fun p => (hash p.1).testBit (bkt s bIdx).depth_) }],
    dir := updateSlots dir1 s.buckets.length
      (r + 2 ^ (bkt s bIdx).depth_) (2 * 2 ^ (bkt s bIdx).depth_) }

theorem redistribute_eq (hash : K → Nat) (s : EHT K V) (bIdx : Nat)
    (front : K × V) (tail : List (K × V)) (hl : (bkt s bIdx).list_ = front :: tail) :
    redistributeBucket hash s bIdx = some (splitState hash s bIdx
      (if (bkt s bIdx).depth_ = s.global_depth then s.global_depth + 1 else s.global_depth)
      (if (bkt s bIdx).depth_ = s.global_depth then s.dir ++ s.dir else s.dir)
      (hash front.1 % 2 ^ (bkt s bIdx).depth_)) := by
  simp only [redistributeBucket, splitState]
  rw [hl]
  by_cases h : (bkt s bIdx).depth_ = s.global_depth <;> simp [h]

theorem splitState_global_depth (hash : K → Nat) (s : EHT K V) (bIdx gd2 : Nat)
    (dir1 : List Nat) (r : Nat) :
    (splitState hash s bIdx gd2 dir1 r).global_depth = gd2 := rfl

theorem splitState_bucket_size (hash : K → Nat) (s : EHT K V) (bIdx gd2 : Nat)
    (dir1 : List Nat) (r : Nat) :
    (splitState hash s bIdx gd2 dir1 r).bucket_size = s.bucket_size := rfl

theorem splitState_buckets_length (hash : K → Nat) (s : EHT K V) (bIdx gd2 : Nat)
    (dir1 : List Nat) (r : Nat) :
    (splitState hash s bIdx gd2 dir1 r).buckets.length = s.buckets.length + 1 := by
  simp [splitState]

theorem splitState_bkt_old (hash : K → Nat) (s : EHT K V) (bIdx gd2 : Nat)
    (dir1 : List Nat) (r : Nat) (hvb : bIdx < s.buckets.length) :
    bkt (splitState hash s bIdx gd2 dir1 r) bIdx =
      { size_ := (bkt s bIdx).size_, depth_ := (bkt s bIdx).depth_ + 1,
        list_ := (bkt s bIdx).list_.filter
          (fun p => !(hash p.1).testBit (bkt s bIdx).depth_) } := by
  unfold splitState bkt
  simp only [List.getD_eq_getElem?_getD]
  rw [List.getElem?_append, if_pos (by simpa using hvb),
    List.getElem?_set_self (by simpa using hvb)]
  rfl

theorem splitState_bkt_new (hash : K → Nat) (s : EHT K V) (bIdx gd2 : Nat)
    (dir1 : List Nat) (r : Nat) :
    bkt (splitState hash s bIdx gd2 dir1 r) s.buckets.length =
      { size_ := s.bucket_size, depth_ := (bkt s bIdx).depth_ + 1,
        list_ := (bkt s bIdx).list_.filter
          (fun p => (hash p.1).testBit (bkt s bIdx).depth_) } := by
  unfold splitState bkt
  simp only [List.getD_eq_getElem?_getD]
  rw [List.getElem?_append_right (by simp)]
  simp

theorem splitState_bkt_other (hash : K → Nat) (s : EHT K V) (bIdx gd2 : Nat)
    (dir1 : List Nat) (r : Nat) (i : Nat) (hi : i < s.buckets.length) (hne : i ≠ bIdx) :
    bkt (splitState hash s bIdx gd2 dir1 r) i = bkt s i := by
  unfold splitState bkt
  simp only [List.getD_eq_getElem?_getD]
  rw [List.getElem?_append, if_pos (by simpa using hi), List.getElem?_set_ne (Ne.symm hne)]

theorem splitState_dir_length (hash : K → Nat) (s : EHT K V) (bIdx gd2 : Nat)
    (dir1 : List Nat) (r : Nat) :
    (splitState hash s bIdx gd2 dir1 r).dir.length = dir1.length := by
  unfold splitState
  exact updateSlots_length _ _ _ _

theorem splitState_dirGet (hash : K → Nat) (s : EHT K V) (bIdx gd2 : Nat)
    (dir1 : List Nat) (r : Nat)
    (hdir1len : dir1.length = 2 ^ gd2)
    (hdir1get : ∀ j, j < 2 ^ gd2 → dir1.getD j 0 = dirGet s (j % 2 ^ s.global_depth))
    (hr : r < 2 ^ (bkt s bIdx).depth_)
    (j : Nat) (hj : j < 2 ^ gd2) :
    dirGet (splitState hash s bIdx gd2 dir1 r) j =
      if j % 2 ^ ((bkt s bIdx).depth_ + 1) = r + 2 ^ (bkt s bIdx).depth_
      then s.buckets.length else dirGet s (j % 2 ^ s.global_depth) := by
  have hstep : 2 * 2 ^ (bkt s bIdx).depth_ = 2 ^ ((bkt s bIdx).depth_ + 1) := by ring
  have hpos : (0 : Nat) < 2 ^ (bkt s bIdx).depth_ := Nat.pos_pow_of_pos _ (by omega)
  have ht : r + 2 ^ (bkt s bIdx).depth_ < 2 ^ ((bkt s bIdx).depth_ + 1) := by
    rw [pow_succ]
    omega
  show (updateSlots dir1 s.buckets.length
      (r + 2 ^ (bkt s bIdx).depth_) (2 * 2 ^ (bkt s bIdx).depth_)).getD j 0 = _
  rw [updateSlots_getD _ _ _ _ _ (by omega) (by omega)]
  rw [hstep]
  rw [if_congr (progression_iff ht) rfl rfl, hdir1get j hj]

/-- Doubling the directory (`dir_.resize(size * 2)` followed by `copy_n`)
gives a directory indexed modulo the old size. -/
theorem dir_double_getD (s : EHT K V) (hlen : s.dir.length = 2 ^ s.global_depth)
    (j : Nat) (hj : j < 2 ^ (s.global_depth + 1)) :
    (s.dir ++ s.dir).getD j 0 = dirGet s (j % 2 ^ s.global_depth) := by
  by_cases h : j < 2 ^ s.global_depth
  · rw [List.getD_append _ _ _ _ (by omega)]
    unfold dirGet
    rw [Nat.mod_eq_of_lt h]
  · rw [List.getD_append_right _ _ _ _ (by omega)]
    unfold dirGet
    have h2 : j % 2 ^ s.global_depth = j - 2 ^ s.global_depth := by
      rw [Nat.mod_eq_sub_mod (by omega)]
      have : j - 2 ^ s.global_depth < 2 ^ s.global_depth := by
        have := pow_succ 2 s.global_depth
        omega
      exact Nat.mod_eq_of_lt this
    rw [hlen, h2]

/-- Core correctness of a bucket split: starting from an invariant state,
with `dir1`/`gd2` the (possibly doubled) directory and global depth, the
split state satisfies the invariant again, and a key routed to the split
bucket is re-routed to the old or new bucket according to its hash bit at
the split depth. -/
theorem splitState_spec (hash : K → Nat) (s : EHT K V) (hinv : Inv hash s)
    (j0 bIdx d r gd2 : Nat) (dir1 : List Nat)
    (hj0 : j0 < 2 ^ s.global_depth) (hb : dirGet s j0 = bIdx)
    (hd : (bkt s bIdx).depth_ = d) (hr : j0 % 2 ^ d = r)
    (hdir1len : dir1.length = 2 ^ gd2)
    (hdir1get : ∀ j, j < 2 ^ gd2 → dir1.getD j 0 = dirGet s (j % 2 ^ s.global_depth))
    (hgdle : s.global_depth ≤ gd2)
    (hd1 : d + 1 ≤ gd2) :
    Inv hash (splitState hash s bIdx gd2 dir1 r) ∧
    (∀ k2 : K, dirGet s (hash k2 % 2 ^ s.global_depth) = bIdx →
      dirGet (splitState hash s bIdx gd2 dir1 r) (hash k2 % 2 ^ gd2) =
        if (hash k2).testBit d then s.buckets.length else bIdx) := by
  obtain ⟨hlen, hbsz, hvalid, hdepth, hsize, hlenle, hcs, hkeys, hnodup⟩ := hinv
  have hpowd : 0 < 2 ^ d := Nat.pos_pow_of_pos _ (by omega)
  have hpowd1 : 0 < 2 ^ (d + 1) := Nat.pos_pow_of_pos _ (by omega)
  have hpowgd : 0 < 2 ^ s.global_depth := Nat.pos_pow_of_pos _ (by omega)
  have hpowgd2 : 0 < 2 ^ gd2 := Nat.pos_pow_of_pos _ (by omega)
  have hdle : d ≤ s.global_depth := by
    have := hdepth j0 hj0
    rw [hb, hd] at this
    exact this
  have hr2 : r < 2 ^ d := by
    rw [← hr]
    exact Nat.mod_lt _ hpowd
  have hvb : bIdx < s.buckets.length := by
    have := hvalid j0 hj0
    rwa [hb] at this
  have hS2bl : (splitState hash s bIdx gd2 dir1 r).buckets.length = s.buckets.length + 1 :=
    splitState_buckets_length hash s bIdx gd2 dir1 r
  have hbStay := splitState_bkt_old hash s bIdx gd2 dir1 r hvb
  have hbMove := splitState_bkt_new hash s bIdx gd2 dir1 r
  rw [hd] at hbStay hbMove
  have hbOld := splitState_bkt_other hash s bIdx gd2 dir1 r
  have hget : ∀ j, j < 2 ^ gd2 → dirGet (splitState hash s bIdx gd2 dir1 r) j =
      if j % 2 ^ (d + 1) = r + 2 ^ d then s.buckets.length
      else dirGet s (j % 2 ^ s.global_depth) := by
    intro j hj
    have := splitState_dirGet hash s bIdx gd2 dir1 r hdir1len hdir1get
      (by rw [hd]; exact hr2) j hj
    rwa [hd] at this
  have hF1 : ∀ j, j < 2 ^ s.global_depth → (dirGet s j = bIdx ↔ j % 2 ^ d = r) := by
    intro j hj
    have := hcs j0 hj0 j hj
    rw [hb, hd, hr] at this
    exact this.symm
  have hmm2 : ∀ j : Nat, j % 2 ^ s.global_depth % 2 ^ d = j % 2 ^ d := by
    intro j
    exact Nat.mod_mod_of_dvd j (pow_dvd_pow 2 hdle)
  have hmodgd : ∀ j : Nat, j % 2 ^ s.global_depth < 2 ^ s.global_depth := by
    intro j
    exact Nat.mod_lt _ hpowgd
  have hmod_of : ∀ j : Nat, j % 2 ^ (d + 1) = r → j % 2 ^ d = r := by
    intro j hj
    have h1 : j % 2 ^ d = j % 2 ^ (d + 1) % 2 ^ d :=
      (Nat.mod_mod_of_dvd j (pow_dvd_pow 2 (Nat.le_succ d))).symm
    rw [h1, hj, Nat.mod_eq_of_lt hr2]
  have hmod_of2 : ∀ j : Nat, j % 2 ^ (d + 1) = r + 2 ^ d → j % 2 ^ d = r := by
    intro j hj
    have h1 : j % 2 ^ d = j % 2 ^ (d + 1) % 2 ^ d :=
      (Nat.mod_mod_of_dvd j (pow_dvd_pow 2 (Nat.le_succ d))).symm
    rw [h1, hj, Nat.add_mod_right, Nat.mod_eq_of_lt hr2]
  have hsplit2 : ∀ j : Nat, j % 2 ^ d = r →
      j % 2 ^ (d + 1) = r ∨ j % 2 ^ (d + 1) = r + 2 ^ d := by
    intro j hj
    have hms := mod_pow_succ j d
    rw [hj] at hms
    rcases (by omega : j / 2 ^ d % 2 = 0 ∨ j / 2 ^ d % 2 = 1) with h | h <;>
      rw [h] at hms
    · left; omega
    · right; omega
  have hne_rr : r + 2 ^ d ≠ r := by omega
  -- slot characterisations in the split state
  have hslotNew : ∀ j, j < 2 ^ gd2 →
      (dirGet (splitState hash s bIdx gd2 dir1 r) j = s.buckets.length ↔
        j % 2 ^ (d + 1) = r + 2 ^ d) := by
    intro j hj
    rw [hget j hj]
    by_cases hc : j % 2 ^ (d + 1) = r + 2 ^ d
    · simp [hc]
    · rw [if_neg hc]
      constructor
      · intro habs
        have := hvalid _ (hmodgd j)
        omega
      · intro habs
        exact absurd habs hc
  have hslotOld : ∀ j, j < 2 ^ gd2 →
      (dirGet (splitState hash s bIdx gd2 dir1 r) j = bIdx ↔
        j % 2 ^ (d + 1) = r) := by
    intro j hj
    rw [hget j hj]
    by_cases hc : j % 2 ^ (d + 1) = r + 2 ^ d
    · rw [if_pos hc]
      constructor
      · intro habs
        omega
      · intro habs
        rw [habs] at hc
        exact absurd hc (by omega)
    · rw [if_neg hc]
      rw [hF1 _ (hmodgd j), hmm2]
      constructor
      · intro hdr
        rcases hsplit2 j hdr with h | h
        · exact h
        · exact absurd h hc
      · intro hdr
        exact hmod_of j hdr
  have hslotC : ∀ j, j < 2 ^ gd2 → j % 2 ^ d ≠ r →
      dirGet (splitState hash s bIdx gd2 dir1 r) j = dirGet s (j % 2 ^ s.global_depth) ∧
      dirGet s (j % 2 ^ s.global_depth) ≠ bIdx ∧
      dirGet s (j % 2 ^ s.global_depth) < s.buckets.length := by
    intro j hj hjr
    have hcA : j % 2 ^ (d + 1) ≠ r + 2 ^ d := by
      intro habs
      exact hjr (hmod_of2 j habs)
    refine ⟨by rw [hget j hj, if_neg hcA], ?_, hvalid _ (hmodgd j)⟩
    intro habs
    rw [hF1 _ (hmodgd j), hmm2] at habs
    exact hjr habs
  constructor
  · -- the invariant for the split state
    refine ⟨?_, hbsz, ?_, ?_, ?_, ?_, ?_, ?_, ?_⟩
    · -- directory length
      rw [splitState_dir_length, hdir1len]
      rfl
    · -- valid arena indices
      intro j hj
      rw [hS2bl]
      by_cases hjr : j % 2 ^ d = r
      · rcases hsplit2 j hjr with h | h
        · have := (hslotOld j hj).mpr h
          omega
        · have := (hslotNew j hj).mpr h
          omega
      · have := (hslotC j hj hjr).1
        have h2 := (hslotC j hj hjr).2.2
        omega
    · -- depth bounded by global depth
      intro j hj
      show (bkt _ (dirGet _ j)).depth_ ≤ gd2
      by_cases hjr : j % 2 ^ d = r
      · rcases hsplit2 j hjr with h | h
        · rw [(hslotOld j hj).mpr h, hbStay]
          exact hd1
        · rw [(hslotNew j hj).mpr h, hbMove]
          exact hd1
      · obtain ⟨he, hne, hlt⟩ := hslotC j hj hjr
        rw [he, hbOld _ hlt hne]
        have := hdepth _ (hmodgd j)
        omega
    · -- bucket capacity field
      intro j hj
      show (bkt _ (dirGet _ j)).size_ = s.bucket_size
      by_cases hjr : j % 2 ^ d = r
      · rcases hsplit2 j hjr with h | h
        · rw [(hslotOld j hj).mpr h, hbStay]
          have := hsize j0 hj0
          rw [hb] at this
          exact this
        · rw [(hslotNew j hj).mpr h, hbMove]
      · obtain ⟨he, hne, hlt⟩ := hslotC j hj hjr
        rw [he, hbOld _ hlt hne]
        exact hsize _ (hmodgd j)
    · -- bucket occupancy bound
      intro j hj
      show (bkt _ (dirGet _ j)).list_.length ≤ s.bucket_size
      have holdlen : (bkt s bIdx).list_.length ≤ s.bucket_size := by
        have := hlenle j0 hj0
        rwa [hb] at this
      by_cases hjr : j % 2 ^ d = r
      · rcases hsplit2 j hjr with h | h
        · rw [(hslotOld j hj).mpr h, hbStay]
          exact le_trans (List.length_filter_le _ _) holdlen
        · rw [(hslotNew j hj).mpr h, hbMove]
          exact le_trans (List.length_filter_le _ _) holdlen
      · obtain ⟨he, hne, hlt⟩ := hslotC j hj hjr
        rw [he, hbOld _ hlt hne]
        exact hlenle _ (hmodgd j)
    · -- two slots share a bucket iff they share its low depth bits
      intro j hj j2 hj2
      by_cases hjr : j % 2 ^ d = r
      · rcases hsplit2 j hjr with h | h
        · rw [(hslotOld j hj).mpr h, hbStay]
          show j2 % 2 ^ (d + 1) = j % 2 ^ (d + 1) ↔ _
          rw [h, hslotOld j2 hj2]
        · rw [(hslotNew j hj).mpr h, hbMove]
          show j2 % 2 ^ (d + 1) = j % 2 ^ (d + 1) ↔ _
          rw [h, hslotNew j2 hj2]
      · obtain ⟨he, hne, hlt⟩ := hslotC j hj hjr
        rw [he, hbOld _ hlt hne]
        have hdc : (bkt s (dirGet s (j % 2 ^ s.global_depth))).depth_ ≤ s.global_depth :=
          hdepth _ (hmodgd j)
        have hold := hcs _ (hmodgd j) _ (hmodgd j2)
        have hmmc : ∀ x : Nat, x % 2 ^ s.global_depth %
            2 ^ (bkt s (dirGet s (j % 2 ^ s.global_depth))).depth_ =
            x % 2 ^ (bkt s (dirGet s (j % 2 ^ s.global_depth))).depth_ := by
          intro x
          exact Nat.mod_mod_of_dvd x (pow_dvd_pow 2 hdc)
        rw [hmmc j, hmmc j2] at hold
        rw [hold]
        -- remains: dirGet s (j2 % 2^gd) = dirGet s (j % 2^gd) ↔ dirGet S2 j2 = …
        constructor
        · intro h2
          have hj2r : j2 % 2 ^ d ≠ r := by
            intro habs
            apply hne
            rw [← h2, hF1 _ (hmodgd j2), hmm2]
            exact habs
          rw [(hslotC j2 hj2 hj2r).1, h2]
        · intro h2
          by_cases hj2r : j2 % 2 ^ d = r
          · exfalso
            rcases hsplit2 j2 hj2r with hh | hh
            · rw [(hslotOld j2 hj2).mpr hh] at h2
              exact hne h2.symm
            · rw [(hslotNew j2 hj2).mpr hh] at h2
              omega
          · rw [(hslotC j2 hj2 hj2r).1] at h2
            exact h2
    · -- keys agree with their slot on the bucket depth bits
      intro j hj p hp
      have hkeys0 : ∀ q ∈ (bkt s bIdx).list_, hash q.1 % 2 ^ d = r := by
        intro q hq
        have := hkeys j0 hj0 q (by rwa [hb])
        rw [hb, hd, hr] at this
        exact this
      by_cases hjr : j % 2 ^ d = r
      · rcases hsplit2 j hjr with h | h
        · rw [(hslotOld j hj).mpr h, hbStay] at hp ⊢
          show hash p.1 % 2 ^ (d + 1) = j % 2 ^ (d + 1)
          simp only [List.mem_filter] at hp
          obtain ⟨hpmem, hpbit⟩ := hp
          have hbit : (hash p.1).testBit d = false := by
            simpa using hpbit
          rw [mod_pow_succ_of_testBit_false d hbit, hkeys0 p hpmem, h]
        · rw [(hslotNew j hj).mpr h, hbMove] at hp ⊢
          show hash p.1 % 2 ^ (d + 1) = j % 2 ^ (d + 1)
          simp only [List.mem_filter] at hp
          obtain ⟨hpmem, hpbit⟩ := hp
          rw [mod_pow_succ_of_testBit_true d hpbit, hkeys0 p hpmem, h]
      · obtain ⟨he, hne, hlt⟩ := hslotC j hj hjr
        rw [he, hbOld _ hlt hne] at hp ⊢
        have := hkeys _ (hmodgd j) p hp
        have hdc : (bkt s (dirGet s (j % 2 ^ s.global_depth))).depth_ ≤ s.global_depth :=
          hdepth _ (hmodgd j)
        rwa [Nat.mod_mod_of_dvd j (pow_dvd_pow 2 hdc)] at this
    · -- per-bucket key distinctness
      intro j hj
      have hnod0 : ((bkt s bIdx).list_.map Prod.fst).Nodup := by
        have := hnodup j0 hj0
        rwa [hb] at this
      by_cases hjr : j % 2 ^ d = r
      · rcases hsplit2 j hjr with h | h
        · rw [(hslotOld j hj).mpr h, hbStay]
          exact hnod0.sublist ((List.filter_sublist _).map _)
        · rw [(hslotNew j hj).mpr h, hbMove]
          exact hnod0.sublist ((List.filter_sublist _).map _)
      · obtain ⟨he, hne, hlt⟩ := hslotC j hj hjr
        rw [he, hbOld _ hlt hne]
        exact hnodup _ (hmodgd j)
  · -- re-routing of keys previously routed to the split bucket
    intro k2 hk2
    have hkr : hash k2 % 2 ^ d = r := by
      have := (hF1 _ (hmodgd (hash k2))).mp hk2
      rwa [hmm2] at this
    have hj2 : hash k2 % 2 ^ gd2 < 2 ^ gd2 := Nat.mod_lt _ hpowgd2
    have hmmd1 : hash k2 % 2 ^ gd2 % 2 ^ (d + 1) = hash k2 % 2 ^ (d + 1) :=
      Nat.mod_mod_of_dvd _ (pow_dvd_pow 2 hd1)
    cases hbit : (hash k2).testBit d with
    | true =>
      rw [if_pos rfl]
      apply (hslotNew _ hj2).mpr
      rw [hmmd1, mod_pow_succ_of_testBit_true d hbit, hkr]
    | false =>
      rw [if_neg (by simp)]
      apply (hslotOld _ hj2).mpr
      rw [hmmd1, mod_pow_succ_of_testBit_false d hbit, hkr]

/-! ### Bucket operation lemmas -/

theorem listOverwrite_map_fst [DecidableEq K] (k : K) (v : V) :
    ∀ l : List (K × V), (listOverwrite l k v).map Prod.fst = l.map Prod.fst := by
  intro l
  induction l with
  | nil => rfl
  | cons p rest ih =>
    unfold listOverwrite
    by_cases h : p.1 = k
    · simp [h]
    · simp [h, ih]

theorem listOverwrite_length [DecidableEq K] (k : K) (v : V) (l : List (K × V)) :
    (listOverwrite l k v).length = l.length := by
  have := listOverwrite_map_fst k v l
  have h1 := congrArg List.length this
  simpa using h1

theorem listOverwrite_find [DecidableEq K] (k : K) (v : V) :
    ∀ l : List (K × V), (∃ p ∈ l, p.1 = k) →
      ((listOverwrite l k v).find? (fun p => p.1 = k)).map Prod.snd = some v := by
  intro l
  induction l with
  | nil => rintro ⟨p, hp, -⟩; simp at hp
  | cons p rest ih =>
    intro hex
    unfold listOverwrite
    by_cases h : p.1 = k
    · simp [List.find?_cons, h]
    · rw [if_neg h]
      rw [List.find?_cons_of_neg _ (by simpa using h)]
      apply ih
      rcases hex with ⟨q, hq, hqk⟩
      rcases List.mem_cons.mp hq with rfl | hq2
      · exact absurd hqk h
      · exact ⟨q, hq2, hqk⟩

theorem find_append_fresh [DecidableEq K] (k : K) (v : V) :
    ∀ l : List (K × V), (∀ p ∈ l, p.1 ≠ k) →
      (l ++ [(k, v)]).find? (fun p => p.1 = k) = some (k, v) := by
  intro l
  induction l with
  | nil => intro _; simp [List.find?_cons]
  | cons p rest ih =>
    intro hall
    rw [List.cons_append, List.find?_cons_of_neg _ (by simpa using hall p (by simp))]
    exact ih (fun q hq => hall q (List.mem_cons_of_mem _ hq))

theorem bucketInsert_find [DecidableEq K] (b : Bucket K V) (k : K) (v : V)
    (h : (bucketInsert b k v).1 = true) :
    bucketFind (bucketInsert b k v).2 k = some v := by
  unfold bucketInsert at h ⊢
  by_cases hmem : b.list_.any (fun p => p.1 = k)
  · rw [if_pos hmem] at h ⊢
    show ((listOverwrite b.list_ k v).find? (fun p => p.1 = k)).map Prod.snd = some v
    apply listOverwrite_find
    rcases List.any_eq_true.mp hmem with ⟨p, hp, hpk⟩
    exact ⟨p, hp, by simpa using hpk⟩
  · rw [if_neg hmem] at h ⊢
    by_cases hfull : bucketIsFull b
    · rw [if_pos hfull] at h
      simp at h
    · rw [if_neg hfull] at h ⊢
      show ((b.list_ ++ [(k, v)]).find? (fun p => p.1 = k)).map Prod.snd = some v
      rw [find_append_fresh k v b.list_ ?fresh]
      · rfl
      case fresh =>
        intro p hp
        intro habs
        apply hmem
        exact List.any_eq_true.mpr ⟨p, hp, by simpa using habs⟩

theorem bucketInsert_fail [DecidableEq K] (b : Bucket K V) (k : K) (v : V)
    (h : (bucketInsert b k v).1 = false) :
    (bucketInsert b k v).2 = b ∧ b.list_.length = b.size_ ∧
      (∀ p ∈ b.list_, p.1 ≠ k) := by
  unfold bucketInsert at h ⊢
  by_cases hmem : b.list_.any (fun p => p.1 = k)
  · rw [if_pos hmem] at h
    simp at h
  · rw [if_neg hmem] at h ⊢
    by_cases hfull : bucketIsFull b
    · rw [if_pos hfull] at h ⊢
      refine ⟨rfl, by simpa [bucketIsFull] using hfull, ?_⟩
      intro p hp habs
      exact hmem (List.any_eq_true.mpr ⟨p, hp, by simpa using habs⟩)
    · rw [if_neg hfull] at h
      simp at h

theorem listEraseFirst_sublist [DecidableEq K] (k : K) :
    ∀ l : List (K × V), (listEraseFirst l k).Sublist l := by
  intro l
  induction l with
  | nil => exact List.Sublist.refl _
  | cons p rest ih =>
    unfold listEraseFirst
    by_cases h : p.1 = k
    · rw [if_pos h]
      exact List.sublist_cons_self _ _
    · rw [if_neg h]
      exact List.Sublist.cons₂ _ ih

/-! ### Invariant preservation by an in-place bucket update -/

/-- Mutating the bucket referenced through slot `j0` in place (keeping its
depth and capacity, with new contents that still respect the occupancy
bound, the key-routing bits and key distinctness) preserves the invariant.
Covers both a successful `Bucket::Insert` and a `Bucket::Remove`. -/
theorem setBucket_Inv (hash : K → Nat) (s : EHT K V) (hinv : Inv hash s)
    (j0 : Nat) (hj0 : j0 < 2 ^ s.global_depth) (newB : Bucket K V)
    (hdep : newB.depth_ = (bkt s (dirGet s j0)).depth_)
    (hsz : newB.size_ = (bkt s (dirGet s j0)).size_)
    (hlenB : newB.list_.length ≤ s.bucket_size)
    (hkeysB : ∀ p ∈ newB.list_, hash p.1 % 2 ^ newB.depth_ = j0 % 2 ^ newB.depth_)
    (hnodupB : (newB.list_.map Prod.fst).Nodup) :
    Inv hash { s with buckets := s.buckets.set (dirGet s j0) newB } := by
  obtain ⟨hlen, hbsz, hvalid, hdepth, hsize, hlenle, hcs, hkeys, hnodup⟩ := hinv
  have hvb : dirGet s j0 < s.buckets.length := hvalid j0 hj0
  have hdirG : ∀ j, dirGet { s with buckets := s.buckets.set (dirGet s j0) newB } j =
      dirGet s j := by
    intro j
    rfl
  have hbktG : ∀ i, bkt { s with buckets := s.buckets.set (dirGet s j0) newB } i =
      if i = dirGet s j0 then newB else bkt s i := by
    intro i
    by_cases h : i = dirGet s j0
    · subst h
      unfold bkt
      simp only [List.getD_eq_getElem?_getD]
      rw [List.getElem?_set_self (by simpa using hvb)]
      simp
    · unfold bkt
      simp only [List.getD_eq_getElem?_getD]
      rw [List.getElem?_set_ne (fun habs => h habs.symm)]
      simp [h]
  refine ⟨hlen, hbsz, ?_, ?_, ?_, ?_, ?_, ?_, ?_⟩
  · intro j hj
    rw [hdirG]
    simpa using hvalid j hj
  · intro j hj
    rw [hdirG, hbktG]
    by_cases h : dirGet s j = dirGet s j0
    · rw [if_pos h, hdep, ← h]
      exact hdepth j hj
    · rw [if_neg h]
      exact hdepth j hj
  · intro j hj
    rw [hdirG, hbktG]
    by_cases h : dirGet s j = dirGet s j0
    · rw [if_pos h, hsz, ← h]
      exact hsize j hj
    · rw [if_neg h]
      exact hsize j hj
  · intro j hj
    rw [hdirG, hbktG]
    by_cases h : dirGet s j = dirGet s j0
    · rw [if_pos h]
      exact hlenB
    · rw [if_neg h]
      exact hlenle j hj
  · intro j hj j2 hj2
    rw [hdirG, hdirG, hbktG]
    by_cases h : dirGet s j = dirGet s j0
    · rw [if_pos h, hdep, ← h]
      exact hcs j hj j2 hj2
    · rw [if_neg h]
      exact hcs j hj j2 hj2
  · intro j hj p hp
    rw [hdirG, hbktG] at hp ⊢
    by_cases h : dirGet s j = dirGet s j0
    · rw [if_pos h] at hp ⊢
      rw [hdep]
      have hkp := hkeysB p hp
      rw [hdep] at hkp
      rw [hkp]
      -- j0 and j reference the same bucket, so they agree on its depth bits
      exact ((hcs j0 hj0 j hj).mpr h).symm
    · rw [if_neg h] at hp ⊢
      exact hkeys j hj p hp
  · intro j hj
    rw [hdirG, hbktG]
    by_cases h : dirGet s j = dirGet s j0
    · rw [if_pos h]
      exact hnodupB
    · rw [if_neg h]
      exact hnodup j hj

/-- Full specification of `RedistributeBucket` on the bucket referenced by
slot `j0` of an invariant state with a non-empty bucket: it succeeds, the
invariant is preserved, both halves of the split get depth `d + 1`, their
contents partition the old contents, all other buckets are untouched, and
keys previously routed to the bucket are re-routed by their hash bit `d`. -/
theorem redistribute_spec (hash : K → Nat) (s : EHT K V) (hinv : Inv hash s)
    (j0 : Nat) (hj0 : j0 < 2 ^ s.global_depth)
    (hne : (bkt s (dirGet s j0)).list_ ≠ []) :
    ∃ s2, redistributeBucket hash s (dirGet s j0) = some s2 ∧
      Inv hash s2 ∧
      s2.bucket_size = s.bucket_size ∧
      s2.buckets.length = s.buckets.length + 1 ∧
      s2.num_buckets = s.num_buckets ∧
      (s2.global_depth = if (bkt s (dirGet s j0)).depth_ = s.global_depth
        then s.global_depth + 1 else s.global_depth) ∧
      (bkt s2 (dirGet s j0)).depth_ = (bkt s (dirGet s j0)).depth_ + 1 ∧
      (bkt s2 s.buckets.length).depth_ = (bkt s (dirGet s j0)).depth_ + 1 ∧
      (bkt s2 (dirGet s j0)).list_ = (bkt s (dirGet s j0)).list_.filter
        (fun p => !(hash p.1).testBit (bkt s (dirGet s j0)).depth_) ∧
      (bkt s2 s.buckets.length).list_ = (bkt s (dirGet s j0)).list_.filter
        (fun p => (hash p.1).testBit (bkt s (dirGet s j0)).depth_) ∧
      (∀ i, i < s.buckets.length → i ≠ dirGet s j0 → bkt s2 i = bkt s i) ∧
      (∀ k2 : K, dirGet s (hash k2 % 2 ^ s.global_depth) = dirGet s j0 →
        dirGet s2 (hash k2 % 2 ^ s2.global_depth) =
          if (hash k2).testBit (bkt s (dirGet s j0)).depth_
          then s.buckets.length else dirGet s j0) := by
  obtain ⟨hlen, hbsz, hvalid, hdepth, hsize, hlenle, hcs, hkeys, hnodup⟩ := hinv
  have hinv2 : Inv hash s :=
    ⟨hlen, hbsz, hvalid, hdepth, hsize, hlenle, hcs, hkeys, hnodup⟩
  have hvb : dirGet s j0 < s.buckets.length := hvalid j0 hj0
  have hdle : (bkt s (dirGet s j0)).depth_ ≤ s.global_depth := hdepth j0 hj0
  cases hl : (bkt s (dirGet s j0)).list_ with
  | nil => exact absurd hl hne
  | cons front tail =>
    have heq := redistribute_eq hash s (dirGet s j0) front tail hl
    have hfrontmem : front ∈ (bkt s (dirGet s j0)).list_ := by
      rw [hl]
      exact List.mem_cons_self _ _
    have hfront : hash front.1 % 2 ^ (bkt s (dirGet s j0)).depth_ =
        j0 % 2 ^ (bkt s (dirGet s j0)).depth_ := hkeys j0 hj0 front hfrontmem
    by_cases hgd : (bkt s (dirGet s j0)).depth_ = s.global_depth
    · -- the doubling branch
      simp only [if_pos hgd] at heq
      have hspec := splitState_spec hash s hinv2 j0 (dirGet s j0)
        (bkt s (dirGet s j0)).depth_ (hash front.1 % 2 ^ (bkt s (dirGet s j0)).depth_)
        (s.global_depth + 1) (s.dir ++ s.dir) hj0 rfl rfl hfront.symm
        (by rw [List.length_append, hlen]; ring)
        (fun j hj => dir_double_getD s hlen j hj)
        (Nat.le_succ _) (by omega)
      refine ⟨_, heq, hspec.1, rfl, ?_, rfl, ?_, ?_, ?_, ?_, ?_, ?_, ?_⟩
      · exact splitState_buckets_length hash s _ _ _ _
      · rw [splitState_global_depth, if_pos hgd]
      · rw [splitState_bkt_old hash s _ _ _ _ hvb]
      · rw [splitState_bkt_new hash s _ _ _ _]
      · rw [splitState_bkt_old hash s _ _ _ _ hvb]
        simp [hl]
      · rw [splitState_bkt_new hash s _ _ _ _]
        simp [hl]
      · exact fun i hi hne2 => splitState_bkt_other hash s _ _ _ _ i hi hne2
      · intro k2 hk2
        rw [splitState_global_depth]
        exact hspec.2 k2 hk2
    · -- no doubling
      simp only [if_neg hgd] at heq
      have hspec := splitState_spec hash s hinv2 j0 (dirGet s j0)
        (bkt s (dirGet s j0)).depth_ (hash front.1 % 2 ^ (bkt s (dirGet s j0)).depth_)
        s.global_depth s.dir hj0 rfl rfl hfront.symm hlen
        (fun j hj => by
          unfold dirGet
          rw [Nat.mod_eq_of_lt hj])
        (le_refl _) (by omega)
      refine ⟨_, heq, hspec.1, rfl, ?_, rfl, ?_, ?_, ?_, ?_, ?_, ?_, ?_⟩
      · exact splitState_buckets_length hash s _ _ _ _
      · rw [splitState_global_depth, if_neg hgd]
      · rw [splitState_bkt_old hash s _ _ _ _ hvb]
      · rw [splitState_bkt_new hash s _ _ _ _]
      · rw [splitState_bkt_old hash s _ _ _ _ hvb]
        simp [hl]
      · rw [splitState_bkt_new hash s _ _ _ _]
        simp [hl]
      · exact fun i hi hne2 => splitState_bkt_other hash s _ _ _ _ i hi hne2
      · intro k2 hk2
        rw [splitState_global_depth]
        exact hspec.2 k2 hk2

theorem bucketInsert_depth [DecidableEq K] (b : Bucket K V) (k : K) (v : V) :
    (bucketInsert b k v).2.depth_ = b.depth_ ∧ (bucketInsert b k v).2.size_ = b.size_ := by
  unfold bucketInsert
  split_ifs <;> simp

theorem mem_listOverwrite_fst [DecidableEq K] {l : List (K × V)} {k : K} {v : V}
    {p : K × V} (hp : p ∈ listOverwrite l k v) : p.1 ∈ l.map Prod.fst := by
  have h1 : p.1 ∈ (listOverwrite l k v).map Prod.fst := List.mem_map_of_mem _ hp
  rwa [listOverwrite_map_fst] at h1

/-- One successful `Bucket::Insert` step at the routed slot keeps the
invariant and makes `Find` return the inserted value. -/
theorem insert_step_spec [DecidableEq K] (hash : K → Nat) (s : EHT K V) (hinv : Inv hash s)
    (k : K) (v : V) (hr1 : (bucketInsert (bkt s (dirGet s (indexOf hash s k))) k v).1 = true) :
    Inv hash { s with
      buckets := s.buckets.set (dirGet s (indexOf hash s k))
          (bucketInsert (bkt s (dirGet s (indexOf hash s k))) k v).2 } ∧
    find hash { s with
      buckets := s.buckets.set (dirGet s (indexOf hash s k))
          (bucketInsert (bkt s (dirGet s (indexOf hash s k))) k v).2 } k = some v := by
  obtain ⟨hlen, hbsz, hvalid, hdepth, hsize, hlenle, hcs, hkeys, hnodup⟩ := hinv
  have hinv2 : Inv hash s :=
    ⟨hlen, hbsz, hvalid, hdepth, hsize, hlenle, hcs, hkeys, hnodup⟩
  have hpowgd : 0 < 2 ^ s.global_depth := Nat.pos_pow_of_pos _ (by omega)
  have hj0 : indexOf hash s k < 2 ^ s.global_depth := Nat.mod_lt _ hpowgd
  set b := bkt s (dirGet s (indexOf hash s k)) with hbdef
  have hdleb : b.depth_ ≤ s.global_depth := hdepth _ hj0
  have hkeysb : ∀ p ∈ b.list_, hash p.1 % 2 ^ b.depth_ =
      indexOf hash s k % 2 ^ b.depth_ := hkeys _ hj0
  have hkres : hash k % 2 ^ b.depth_ = indexOf hash s k % 2 ^ b.depth_ := by
    unfold indexOf
    exact (Nat.mod_mod_of_dvd _ (pow_dvd_pow 2 hdleb)).symm
  have hInv2 : Inv hash { s with
      buckets := s.buckets.set (dirGet s (indexOf hash s k))
          (bucketInsert b k v).2 } := by
    apply setBucket_Inv hash s hinv2 (indexOf hash s k) hj0
    · exact (bucketInsert_depth b k v).1
    · exact (bucketInsert_depth b k v).2
    · -- occupancy bound
      unfold bucketInsert
      by_cases hmem : b.list_.any (fun p => p.1 = k)
      · rw [if_pos hmem]
        show (listOverwrite b.list_ k v).length ≤ s.bucket_size
        rw [listOverwrite_length]
        exact hlenle _ hj0
      · rw [if_neg hmem]
        by_cases hfull : bucketIsFull b
        · rw [if_pos hfull]
          exact hlenle _ hj0
        · rw [if_neg hfull]
          show (b.list_ ++ [(k, v)]).length ≤ s.bucket_size
          rw [List.length_append]
          have h1 : b.list_.length ≤ s.bucket_size := hlenle _ hj0
          have h2 : ¬ b.list_.length = b.size_ := by
            simpa [bucketIsFull] using hfull
          have h3 : b.size_ = s.bucket_size := hsize _ hj0
          simp only [List.length_singleton]
          omega
    · -- key routing bits
      intro p hp
      rw [(bucketInsert_depth b k v).1]
      revert hp
      unfold bucketInsert
      by_cases hmem : b.list_.any (fun p => p.1 = k)
      · rw [if_pos hmem]
        intro hp
        have hfst := mem_listOverwrite_fst (l := b.list_) hp
        obtain ⟨q, hq, hqk⟩ := List.mem_map.mp hfst
        rw [← hqk]
        exact hkeysb q hq
      · rw [if_neg hmem]
        by_cases hfull : bucketIsFull b
        · rw [if_pos hfull]
          intro hp
          exact hkeysb p hp
        · rw [if_neg hfull]
          intro hp
          show hash p.1 % 2 ^ b.depth_ = _
          rcases List.mem_append.mp hp with hp2 | hp2
          · exact hkeysb p hp2
          · have : p = (k, v) := by simpa using hp2
            rw [this]
            exact hkres
    · -- key distinctness
      unfold bucketInsert
      by_cases hmem : b.list_.any (fun p => p.1 = k)
      · rw [if_pos hmem]
        show ((listOverwrite b.list_ k v).map Prod.fst).Nodup
        rw [listOverwrite_map_fst]
        exact hnodup _ hj0
      · rw [if_neg hmem]
        by_cases hfull : bucketIsFull b
        · rw [if_pos hfull]
          exact hnodup _ hj0
        · rw [if_neg hfull]
          show ((b.list_ ++ [(k, v)]).map Prod.fst).Nodup
          rw [List.map_append, List.nodup_append]
          refine ⟨hnodup _ hj0, by simp, ?_⟩
          intro a ha hb2
          simp only [List.map_cons, List.map_nil, List.mem_singleton] at hb2
          subst hb2
          obtain ⟨q, hq, hqk⟩ := List.mem_map.mp ha
          exact hmem (List.any_eq_true.mpr ⟨q, hq, by simpa using hqk⟩)
  refine ⟨hInv2, ?_⟩
  have hvb : dirGet s (indexOf hash s k) < s.buckets.length := hvalid _ hj0
  have hbkt : bkt { s with
      buckets := s.buckets.set (dirGet s (indexOf hash s k))
          (bucketInsert b k v).2 } (dirGet s (indexOf hash s k)) = (bucketInsert b k v).2 := by
    unfold bkt
    simp only [List.getD_eq_getElem?_getD]
    rw [List.getElem?_set_self (by simpa using hvb)]
    simp
  have hfind : find hash { s with
        buckets := s.buckets.set (dirGet s (indexOf hash s k))
            (bucketInsert b k v).2 } k =
      bucketFind (bkt { s with
        buckets := s.buckets.set (dirGet s (indexOf hash s k))
            (bucketInsert b k v).2 } (dirGet s (indexOf hash s k))) k := rfl
  rw [hfind, hbkt]
  exact bucketInsert_find b k v hr1

/-- The `Insert` loop: any successful run from an invariant state keeps the
invariant, keeps the configured bucket size, and makes `Find k` return the
inserted value. -/
theorem insertLoop_spec [DecidableEq K] (hash : K → Nat) (k : K) (v : V) :
    ∀ (fuel : Nat) (s s2 : EHT K V), Inv hash s →
      insertLoop hash fuel s k v = some s2 →
      Inv hash s2 ∧ s2.bucket_size = s.bucket_size ∧ find hash s2 k = some v := by
  intro fuel
  induction fuel with
  | zero =>
    intro s s2 _ h
    exact absurd h (by simp [insertLoop])
  | succ n ih =>
    intro s s2 hinv h
    obtain ⟨hlen, hbsz, hvalid, hdepth, hsize, hlenle, hcs, hkeys, hnodup⟩ := hinv
    have hinv2 : Inv hash s :=
      ⟨hlen, hbsz, hvalid, hdepth, hsize, hlenle, hcs, hkeys, hnodup⟩
    have hpowgd : 0 < 2 ^ s.global_depth := Nat.pos_pow_of_pos _ (by omega)
    have hj0 : indexOf hash s k < 2 ^ s.global_depth := Nat.mod_lt _ hpowgd
    unfold insertLoop at h
    simp only [] at h
    split at h
    next hr1 =>
      rw [Option.some_inj] at h
      subst h
      have hstep := insert_step_spec hash s hinv2 k v hr1
      exact ⟨hstep.1, rfl, hstep.2⟩
    next hr1 =>
      have hrfalse : (bucketInsert (bkt s (dirGet s (indexOf hash s k))) k v).1 = false := by
        revert hr1
        cases (bucketInsert (bkt s (dirGet s (indexOf hash s k))) k v).1 <;> simp
      obtain ⟨-, hfull, -⟩ := bucketInsert_fail _ k v hrfalse
      have hne : (bkt s (dirGet s (indexOf hash s k))).list_ ≠ [] := by
        intro habs
        rw [habs] at hfull
        simp only [List.length_nil] at hfull
        have h2 := hsize _ hj0
        omega
      obtain ⟨s3, heq3, hinv3, hbs3, -⟩ :=
        redistribute_spec hash s hinv2 (indexOf hash s k) hj0 hne
      rw [heq3] at h
      obtain ⟨hI, hB, hF⟩ := ih s3 s2 hinv3 h
      exact ⟨hI, by rw [hB, hbs3], hF⟩

/-- The constructor establishes the invariant. -/
theorem newEHT_Inv (hash : K → Nat) (bs : Nat) (hbs : 1 ≤ bs) :
    Inv hash (newEHT K V bs) := by
  have hone : ∀ j : Nat, j < 2 ^ (newEHT K V bs).global_depth → j = 0 := by
    intro j hj
    have : j < 1 := by simpa [newEHT] using hj
    omega
  refine ⟨rfl, hbs, ?_, ?_, ?_, ?_, ?_, ?_, ?_⟩
  · intro j hj
    rw [hone j hj]
    simp [newEHT, dirGet, bkt]
  · intro j hj
    rw [hone j hj]
    simp [newEHT, dirGet, bkt]
  · intro j hj
    rw [hone j hj]
    simp [newEHT, dirGet, bkt]
  · intro j hj
    rw [hone j hj]
    simp [newEHT, dirGet, bkt]
  · intro j hj j2 hj2
    rw [hone j hj, hone j2 hj2]
    simp
  · intro j hj p hp
    rw [hone j hj] at hp ⊢
    simp [newEHT, dirGet, bkt] at hp
  · intro j hj
    rw [hone j hj]
    simp [newEHT, dirGet, bkt]

theorem length_filter_partition {α : Type} (p : α → Bool) :
    ∀ l : List α, (l.filter p).length + (l.filter (fun a => !p a)).length = l.length := by
  intro l
  induction l with
  | nil => rfl
  | cons a rest ih =>
    cases h : p a <;> simp [List.filter_cons, h] <;> omega

theorem filter_key_length_le_one [DecidableEq K] (k : K) :
    ∀ l : List (K × V), (l.map Prod.fst).Nodup →
      (l.filter (fun p => p.1 = k)).length ≤ 1 := by
  intro l
  induction l with
  | nil => intro _; simp
  | cons p rest ih =>
    intro hnd
    rw [List.map_cons, List.nodup_cons] at hnd
    by_cases h : p.1 = k
    · rw [List.filter_cons, if_pos (by simpa using h)]
      have hrest : rest.filter (fun q => q.1 = k) = [] := by
        rw [List.filter_eq_nil_iff]
        intro q hq habs
        apply hnd.1
        rw [h, ← (by simpa using habs : q.1 = k)]
        exact List.mem_map_of_mem _ hq
      simp [hrest]
    · rw [List.filter_cons, if_neg (by simpa using h)]
      exact ih hnd.2

theorem listEraseFirst_find_none [DecidableEq K] (k : K) :
    ∀ l : List (K × V), (l.map Prod.fst).Nodup →
      (listEraseFirst l k).find? (fun p => p.1 = k) = none := by
  intro l
  induction l with
  | nil => intro _; rfl
  | cons p rest ih =>
    intro hnd
    rw [List.map_cons, List.nodup_cons] at hnd
    unfold listEraseFirst
    by_cases h : p.1 = k
    · rw [if_pos h]
      rw [List.find?_eq_none]
      intro q hq habs
      apply hnd.1
      rw [h, ← (by simpa using habs : q.1 = k)]
      exact List.mem_map_of_mem _ hq
    · rw [if_neg h]
      rw [List.find?_cons_of_neg _ (by simpa using h)]
      exact ih hnd.2

/-- Full specification of `Remove` on an invariant state: the invariant is
preserved, the result is `true` iff `Find` succeeded before the call, and
`Find` fails afterwards. -/
theorem remove_core [DecidableEq K] (hash : K → Nat) (s : EHT K V) (hinv : Inv hash s)
    (k : K) :
    Inv hash (remove hash s k).2 ∧
    ((remove hash s k).1 = true ↔ (find hash s k).isSome = true) ∧
    find hash (remove hash s k).2 k = none := by
  obtain ⟨hlen, hbsz, hvalid, hdepth, hsize, hlenle, hcs, hkeys, hnodup⟩ := hinv
  have hinv2 : Inv hash s :=
    ⟨hlen, hbsz, hvalid, hdepth, hsize, hlenle, hcs, hkeys, hnodup⟩
  have hpowgd : 0 < 2 ^ s.global_depth := Nat.pos_pow_of_pos _ (by omega)
  have hj0 : indexOf hash s k < 2 ^ s.global_depth := Nat.mod_lt _ hpowgd
  have hvb : dirGet s (indexOf hash s k) < s.buckets.length := hvalid _ hj0
  set b := bkt s (dirGet s (indexOf hash s k)) with hbdef
  have hrem : remove hash s k = ((bucketRemove b k).1,
      { s with buckets := s.buckets.set (dirGet s (indexOf hash s k)) (bucketRemove b k).2 }) :=
    rfl
  have hbkt2 : bkt (remove hash s k).2 (dirGet s (indexOf hash s k)) = (bucketRemove b k).2 := by
    rw [hrem]
    unfold bkt
    simp only [List.getD_eq_getElem?_getD]
    rw [List.getElem?_set_self (by simpa using hvb)]
    simp
  have hfind2 : find hash (remove hash s k).2 k =
      bucketFind (bkt (remove hash s k).2 (dirGet s (indexOf hash s k))) k := rfl
  have hInv : Inv hash (remove hash s k).2 := by
    rw [hrem]
    apply setBucket_Inv hash s hinv2 (indexOf hash s k) hj0
    · unfold bucketRemove
      split_ifs <;> simp
    · unfold bucketRemove
      split_ifs <;> simp
    · unfold bucketRemove
      split_ifs with h
      · show (listEraseFirst b.list_ k).length ≤ s.bucket_size
        exact le_trans (List.Sublist.length_le (listEraseFirst_sublist k b.list_))
          (hlenle _ hj0)
      · exact hlenle _ hj0
    · intro p hp
      revert hp
      unfold bucketRemove
      split_ifs with h
      · intro hp
        show hash p.1 % 2 ^ b.depth_ = _
        have : p ∈ b.list_ := (listEraseFirst_sublist k b.list_).mem hp
        exact hkeys _ hj0 p this
      · intro hp
        exact hkeys _ hj0 p hp
    · unfold bucketRemove
      split_ifs with h
      · show ((listEraseFirst b.list_ k).map Prod.fst).Nodup
        exact (hnodup _ hj0).sublist ((listEraseFirst_sublist k b.list_).map _)
      · exact hnodup _ hj0
  refine ⟨hInv, ?_, ?_⟩
  · rw [hrem]
    show (bucketRemove b k).1 = true ↔ (bucketFind b k).isSome = true
    unfold bucketRemove bucketFind
    by_cases h : b.list_.any (fun p => p.1 = k)
    · rw [if_pos h]
      constructor
      · intro _
        rcases List.any_eq_true.mp h with ⟨p, hp, hpk⟩
        have h2 : (b.list_.find? (fun p => p.1 = k)).isSome = true :=
          List.find?_isSome.mpr ⟨p, hp, hpk⟩
        cases hfo : b.list_.find? (fun p => p.1 = k) with
        | none => rw [hfo] at h2; simp at h2
        | some q => rfl
      · intro _
        rfl
    · rw [if_neg h]
      constructor
      · intro habs
        exact absurd habs (by simp)
      · intro habs
        exfalso
        have h2 : (b.list_.find? (fun p => p.1 = k)).isSome = true := by
          cases hfo : b.list_.find? (fun p => p.1 = k) with
          | none => rw [hfo] at habs; simp at habs
          | some q => rfl
        rw [List.find?_isSome] at h2
        obtain ⟨p, hp, hpk⟩ := h2
        exact h (List.any_eq_true.mpr ⟨p, hp, hpk⟩)
  · rw [hfind2, hbkt2]
    unfold bucketRemove bucketFind
    by_cases h : b.list_.any (fun p => p.1 = k)
    · rw [if_pos h]
      show ((listEraseFirst b.list_ k).find? (fun p => p.1 = k)).map Prod.snd = none
      rw [listEraseFirst_find_none k b.list_ (hnodup _ hj0)]
      rfl
    · rw [if_neg h]
      show (b.list_.find? (fun p => p.1 = k)).map Prod.snd = none
      have hnone : b.list_.find? (fun p => p.1 = k) = none := by
        rw [List.find?_eq_none]
        intro p hp habs
        exact h (List.any_eq_true.mpr ⟨p, hp, habs⟩)
      rw [hnone]
      rfl

/-- Derivation of the slot-count law from the invariant: the bucket
referenced by slot `j` is referenced by exactly
`2^(global_depth - local_depth)` directory slots. -/
theorem slot_count (hash : K → Nat) (s : EHT K V) (hinv : Inv hash s)
    (j : Nat) (hj : j < 2 ^ s.global_depth) :
    (List.range s.dir.length).countP (fun j2 => dirGet s j2 = dirGet s j) =
      2 ^ (s.global_depth - (bkt s (dirGet s j)).depth_) := by
  obtain ⟨hlen, hbsz, hvalid, hdepth, hsize, hlenle, hcs, hkeys, hnodup⟩ := hinv
  rw [hlen]
  have hdc : (bkt s (dirGet s j)).depth_ ≤ s.global_depth := hdepth j hj
  have hpow : 0 < 2 ^ (bkt s (dirGet s j)).depth_ := Nat.pos_pow_of_pos _ (by omega)
  have hcong : (List.range (2 ^ s.global_depth)).countP
        (fun j2 => dirGet s j2 = dirGet s j) =
      (List.range (2 ^ s.global_depth)).countP
        (fun j2 => j2 % 2 ^ (bkt s (dirGet s j)).depth_ =
          j % 2 ^ (bkt s (dirGet s j)).depth_) := by
    apply List.countP_congr
    intro j2 hj2
    have hj2r : j2 < 2 ^ s.global_depth := List.mem_range.mp hj2
    simp only [decide_eq_true_eq]
    exact (hcs j hj j2 hj2r).symm
  rw [hcong]
  have hsplitpow : (2 : Nat) ^ s.global_depth =
      2 ^ (s.global_depth - (bkt s (dirGet s j)).depth_) *
        2 ^ (bkt s (dirGet s j)).depth_ := by
    rw [← pow_add]
    congr 1
    omega
  rw [hsplitpow]
  exact countP_range_mod _ _ _ (Nat.mod_lt _ hpow)

/-- Termination of the `Insert` loop: if at some depth `D` fewer than
`bucket_size` keys of `k`'s routed bucket other than `k` share the low `D`
bits of `hash k`, then fuel `m + 1` suffices as soon as
`D ≤ local_depth + m`. -/
theorem insertLoop_terminates [DecidableEq K] (hash : K → Nat) (k : K) (v : V) (D : Nat) :
    ∀ (m : Nat) (s : EHT K V), Inv hash s →
      D ≤ (bkt s (dirGet s (indexOf hash s k))).depth_ + m →
      (bkt s (dirGet s (indexOf hash s k))).list_.countP
          (fun p => decide (hash p.1 % 2 ^ D = hash k % 2 ^ D ∧ p.1 ≠ k)) <
        s.bucket_size →
      ∃ s2, insertLoop hash (m + 1) s k v = some s2 := by
  intro m
  induction m with
  | zero =>
    intro s hinv hD hcnt
    obtain ⟨hlen, hbsz, hvalid, hdepth, hsize, hlenle, hcs, hkeys, hnodup⟩ := hinv
    have hpowgd : 0 < 2 ^ s.global_depth := Nat.pos_pow_of_pos _ (by omega)
    have hj0 : indexOf hash s k < 2 ^ s.global_depth := Nat.mod_lt _ hpowgd
    have hdleb : (bkt s (dirGet s (indexOf hash s k))).depth_ ≤ s.global_depth :=
      hdepth _ hj0
    have hsucc : (bucketInsert (bkt s (dirGet s (indexOf hash s k))) k v).1 = true := by
      unfold bucketInsert
      by_cases hmem : (bkt s (dirGet s (indexOf hash s k))).list_.any (fun p => p.1 = k)
      · rw [if_pos hmem]
      · rw [if_neg hmem]
        have hfull : ¬ bucketIsFull (bkt s (dirGet s (indexOf hash s k))) := by
          unfold bucketIsFull
          have hall : ∀ p ∈ (bkt s (dirGet s (indexOf hash s k))).list_,
              (fun p => decide (hash p.1 % 2 ^ D = hash k % 2 ^ D ∧ p.1 ≠ k)) p = true := by
            intro p hp
            simp only [decide_eq_true_eq]
            constructor
            · -- p shares the low D bits of hash k
              have hkey := hkeys _ hj0 p hp
              have hDle : D ≤ (bkt s (dirGet s (indexOf hash s k))).depth_ := by omega
              have h1 : hash p.1 % 2 ^ D =
                  hash p.1 % 2 ^ (bkt s (dirGet s (indexOf hash s k))).depth_ % 2 ^ D :=
                (Nat.mod_mod_of_dvd _ (pow_dvd_pow 2 hDle)).symm
              have h2 : hash k % 2 ^ D =
                  hash k % 2 ^ (bkt s (dirGet s (indexOf hash s k))).depth_ % 2 ^ D :=
                (Nat.mod_mod_of_dvd _ (pow_dvd_pow 2 hDle)).symm
              have hkr : hash k % 2 ^ (bkt s (dirGet s (indexOf hash s k))).depth_ =
                  indexOf hash s k % 2 ^ (bkt s (dirGet s (indexOf hash s k))).depth_ := by
                unfold indexOf
                exact (Nat.mod_mod_of_dvd _ (pow_dvd_pow 2 hdleb)).symm
              rw [h1, h2, hkey, hkr]
            · intro habs
              apply hmem
              exact List.any_eq_true.mpr ⟨p, hp, by simp [habs]⟩
          have hc2 : (bkt s (dirGet s (indexOf hash s k))).list_.countP
              (fun p => decide (hash p.1 % 2 ^ D = hash k % 2 ^ D ∧ p.1 ≠ k)) =
              (bkt s (dirGet s (indexOf hash s k))).list_.length := by
            rw [List.countP_eq_length]
            exact hall
          have hsz := hsize _ hj0
          intro habs
          have hlen_eq := of_decide_eq_true habs
          omega
        rw [if_neg hfull]
    refine ⟨{ s with
      buckets := s.buckets.set (dirGet s (indexOf hash s k))
          (bucketInsert (bkt s (dirGet s (indexOf hash s k))) k v).2 }, ?_⟩
    unfold insertLoop
    simp only []
    rw [if_pos hsucc]
  | succ n ih =>
    intro s hinv hD hcnt
    obtain ⟨hlen, hbsz, hvalid, hdepth, hsize, hlenle, hcs, hkeys, hnodup⟩ := hinv
    have hinv2 : Inv hash s :=
      ⟨hlen, hbsz, hvalid, hdepth, hsize, hlenle, hcs, hkeys, hnodup⟩
    have hpowgd : 0 < 2 ^ s.global_depth := Nat.pos_pow_of_pos _ (by omega)
    have hj0 : indexOf hash s k < 2 ^ s.global_depth := Nat.mod_lt _ hpowgd
    by_cases hsucc : (bucketInsert (bkt s (dirGet s (indexOf hash s k))) k v).1 = true
    · refine ⟨{ s with
        buckets := s.buckets.set (dirGet s (indexOf hash s k))
            (bucketInsert (bkt s (dirGet s (indexOf hash s k))) k v).2 }, ?_⟩
      unfold insertLoop
      simp only []
      rw [if_pos hsucc]
    · have hrfalse : (bucketInsert (bkt s (dirGet s (indexOf hash s k))) k v).1 = false := by
        revert hsucc
        cases (bucketInsert (bkt s (dirGet s (indexOf hash s k))) k v).1 <;> simp
      obtain ⟨-, hfull, -⟩ := bucketInsert_fail _ k v hrfalse
      have hne : (bkt s (dirGet s (indexOf hash s k))).list_ ≠ [] := by
        intro habs
        rw [habs] at hfull
        simp only [List.length_nil] at hfull
        have h2 := hsize _ hj0
        omega
      obtain ⟨s3, heq3, hinv3, hbs3, -, -, -, hdepOld, hdepNew, hlistOld, hlistNew, -, hroute⟩ :=
        redistribute_spec hash s hinv2 (indexOf hash s k) hj0 hne
      have hrk : dirGet s (hash k % 2 ^ s.global_depth) = dirGet s (indexOf hash s k) := rfl
      have hroute2 := hroute k hrk
      -- the routed bucket of k in s3 and its properties
      have hroutedIdx : dirGet s3 (indexOf hash s3 k) =
          if (hash k).testBit (bkt s (dirGet s (indexOf hash s k))).depth_
          then s.buckets.length else dirGet s (indexOf hash s k) := hroute2
      have hdep3 : (bkt s3 (dirGet s3 (indexOf hash s3 k))).depth_ =
          (bkt s (dirGet s (indexOf hash s k))).depth_ + 1 := by
        rw [hroutedIdx]
        cases hbit : (hash k).testBit (bkt s (dirGet s (indexOf hash s k))).depth_
        · rw [if_neg (by simp)]
          exact hdepOld
        · rw [if_pos rfl]
          exact hdepNew
      have hlist3 : (bkt s3 (dirGet s3 (indexOf hash s3 k))).list_.Sublist
          (bkt s (dirGet s (indexOf hash s k))).list_ := by
        rw [hroutedIdx]
        cases hbit : (hash k).testBit (bkt s (dirGet s (indexOf hash s k))).depth_
        · rw [if_neg (by simp), hlistOld]
          exact List.filter_sublist _
        · rw [if_pos rfl, hlistNew]
          exact List.filter_sublist _
      have hcnt3 : (bkt s3 (dirGet s3 (indexOf hash s3 k))).list_.countP
          (fun p => decide (hash p.1 % 2 ^ D = hash k % 2 ^ D ∧ p.1 ≠ k)) <
          s3.bucket_size := by
        rw [hbs3]
        have hle := List.Sublist.countP_le
          (fun p => decide (hash p.1 % 2 ^ D = hash k % 2 ^ D ∧ p.1 ≠ k)) hlist3
        omega
      have hD3 : D ≤ (bkt s3 (dirGet s3 (indexOf hash s3 k))).depth_ + n := by
        rw [hdep3]
        omega
      obtain ⟨s2, hs2⟩ := ih s3 hinv3 hD3 hcnt3
      refine ⟨s2, ?_⟩
      unfold insertLoop
      simp only []
      rw [if_neg (by rw [hrfalse]; simp), heq3]
      exact hs2

/-- C2: insert/find round trip.  For any state satisfying the structural
invariant (in particular any state reached by a sequence of prior inserts,
including those that triggered splits and directory doubling), a successful
`Insert(k, v)` makes `Find(k)` return `(true, v)`. -/
theorem eht_insert_find_roundtrip [DecidableEq K] (hash : K → Nat) (s s2 : EHT K V)
    (k : K) (v : V) (fuel : Nat) (hinv : Inv hash s)
    (h : insertLoop hash fuel s k v = some s2) :
    find hash s2 k = some v :=
  (insertLoop_spec hash k v fuel s s2 hinv h).2.2

/-- C4: the directory invariant (`local_depth ≤ global_depth` and exactly
`2^(global_depth - local_depth)` slots referencing each bucket) holds at
construction and is preserved by `Remove` and `Insert` (`Find` does not
modify the state); and a single split gives both halves depth `d + 1`
without changing the total number of stored pairs. -/
theorem eht_invariant_preservation [DecidableEq K] (hash : K → Nat) :
    (∀ bs : Nat, 1 ≤ bs → Inv hash (newEHT K V bs)) ∧
    (∀ (s : EHT K V) (k : K), Inv hash s → Inv hash (remove hash s k).2) ∧
    (∀ (s s2 : EHT K V) (k : K) (v : V) (fuel : Nat), Inv hash s →
      insertLoop hash fuel s k v = some s2 → Inv hash s2) ∧
    (∀ s : EHT K V, Inv hash s → ∀ j, j < 2 ^ s.global_depth →
      (bkt s (dirGet s j)).depth_ ≤ s.global_depth ∧
      (List.range s.dir.length).countP (fun j2 => dirGet s j2 = dirGet s j) =
        2 ^ (s.global_depth - (bkt s (dirGet s j)).depth_)) ∧
    (∀ (s s2 : EHT K V) (j0 : Nat), Inv hash s → j0 < 2 ^ s.global_depth →
      (bkt s (dirGet s j0)).list_ ≠ [] →
      redistributeBucket hash s (dirGet s j0) = some s2 →
      (bkt s2 (dirGet s j0)).depth_ = (bkt s (dirGet s j0)).depth_ + 1 ∧
      (bkt s2 s.buckets.length).depth_ = (bkt s (dirGet s j0)).depth_ + 1 ∧
      (bkt s2 (dirGet s j0)).list_.length + (bkt s2 s.buckets.length).list_.length =
        (bkt s (dirGet s j0)).list_.length) := by
  refine ⟨fun bs hbs => newEHT_Inv hash bs hbs,
    fun s k hinv => (remove_core hash s hinv k).1,
    fun s s2 k v fuel hinv h => (insertLoop_spec hash k v fuel s s2 hinv h).1,
    fun s hinv j hj => ⟨?_, slot_count hash s hinv j hj⟩, ?_⟩
  · obtain ⟨-, -, -, hdepth, -⟩ := hinv
    exact hdepth j hj
  · intro s s2 j0 hinv hj0 hne h
    obtain ⟨s3, heq3, -, -, -, -, -, hdepOld, hdepNew, hlistOld, hlistNew, -, -⟩ :=
      redistribute_spec hash s hinv j0 hj0 hne
    rw [heq3, Option.some_inj] at h
    subst h
    refine ⟨hdepOld, hdepNew, ?_⟩
    rw [hlistOld, hlistNew]
    have hpart := length_filter_partition
      (fun p => (hash p.1).testBit (bkt s (dirGet s j0)).depth_)
      (bkt s (dirGet s j0)).list_
    omega

/-- C6: a second insert of the same key overwrites the binding: after
`Insert(k, v1); Insert(k, v2)`, `Find(k)` returns `(true, v2)` and every
bucket of the directory holds at most one entry for `k`. -/
theorem eht_insert_overwrite [DecidableEq K] (hash : K → Nat) (s s1 s2 : EHT K V)
    (k : K) (v1 v2 : V) (f1 f2 : Nat) (hinv : Inv hash s)
    (h1 : insertLoop hash f1 s k v1 = some s1)
    (h2 : insertLoop hash f2 s1 k v2 = some s2) :
    find hash s2 k = some v2 ∧
    (∀ j, j < 2 ^ s2.global_depth →
      ((bkt s2 (dirGet s2 j)).list_.filter (fun p => p.1 = k)).length ≤ 1) := by
  have hs1 := insertLoop_spec hash k v1 f1 s s1 hinv h1
  have hs2 := insertLoop_spec hash k v2 f2 s1 s2 hs1.1 h2
  refine ⟨hs2.2.2, ?_⟩
  intro j hj
  obtain ⟨-, -, -, -, -, -, -, -, hnodup⟩ := hs2.1
  exact filter_key_length_le_one k _ (hnodup j hj)

/-- C7: `Remove(k)` returns `true` iff a binding for `k` existed (iff `Find`
succeeded before the call), afterwards `Find(k)` fails; in particular
`Insert(k, v); Remove(k); Find(k)` yields `(false, _)`. -/
theorem eht_remove_spec [DecidableEq K] (hash : K → Nat) (s : EHT K V) (k : K)
    (hinv : Inv hash s) :
    ((remove hash s k).1 = true ↔ (find hash s k).isSome = true) ∧
    find hash (remove hash s k).2 k = none ∧
    (∀ (s1 : EHT K V) (v : V) (fuel : Nat), insertLoop hash fuel s k v = some s1 →
      (remove hash s1 k).1 = true ∧ find hash (remove hash s1 k).2 k = none) := by
  refine ⟨(remove_core hash s hinv k).2.1, (remove_core hash s hinv k).2.2, ?_⟩
  intro s1 v fuel h
  have hspec := insertLoop_spec hash k v fuel s s1 hinv h
  have hcore := remove_core hash s1 hspec.1 k
  constructor
  · rw [hcore.2.1, hspec.2.2]
    rfl
  · exact hcore.2.2

/-- C8: the `while (true)` split-and-retry loop of `Insert` terminates when,
for some depth `D`, fewer than `bucket_size` keys of `k`'s routed bucket
other than `k` itself (so, together with `k`, at most `bucket_size` keys)
share the low `D` bits of `hash k`; fuel `D + 1` iterations then suffice. -/
theorem eht_insert_terminates [DecidableEq K] (hash : K → Nat) (s : EHT K V)
    (k : K) (v : V) (D : Nat) (hinv : Inv hash s)
    (hcol : (bkt s (dirGet s (indexOf hash s k))).list_.countP
        (fun p => decide (hash p.1 % 2 ^ D = hash k % 2 ^ D ∧ p.1 ≠ k)) <
      s.bucket_size) :
    ∃ s2, insertLoop hash (D + 1) s k v = some s2 :=
  insertLoop_terminates hash k v D D s hinv (by omega) hcol

/-- C9 (amended): the initial bucket created by the constructor has local
depth 0 (the spec's own scenario H1 and the slot-count invariant force the
`Bucket` constructor's default depth to be 0), while every bucket produced
by a split — both the retained and the freshly allocated half — has local
depth at least 1. -/
theorem bucket_depth_amended (hash : K → Nat) :
    (∀ bs : Nat, (bkt (newEHT K V bs) (dirGet (newEHT K V bs) 0)).depth_ = 0) ∧
    (∀ (s s2 : EHT K V) (bIdx : Nat), bIdx < s.buckets.length →
      redistributeBucket hash s bIdx = some s2 →
      1 ≤ (bkt s2 bIdx).depth_ ∧ 1 ≤ (bkt s2 s.buckets.length).depth_) := by
  constructor
  · intro bs
    rfl
  · intro s s2 bIdx hlt h
    cases hl : (bkt s bIdx).list_ with
    | nil =>
      unfold redistributeBucket at h
      simp only [] at h
      rw [hl] at h
      simp at h
    | cons front tail =>
      rw [redistribute_eq hash s bIdx front tail hl, Option.some_inj] at h
      subst h
      constructor
      · rw [splitState_bkt_old hash s _ _ _ _ hlt]
        simp
      · rw [splitState_bkt_new hash s _ _ _ _]
        simp

end ExtendibleHashTableInv

/-! ### Concrete witness states for the hash-table claims (identity hash,
matching `std::hash<int>`) -/

def wNew : EHT Nat Nat := newEHT Nat Nat 1

def wS1 : EHT Nat Nat := (insertLoop id 1 wNew 0 100).getD wNew

def wS2 : EHT Nat Nat := (insertLoop id 2 wS1 1 101).getD wNew

def wT2 : EHT Nat Nat := (insertLoop id 1 wS1 0 200).getD wNew

def wSplit : EHT Nat Nat := (redistributeBucket id wS1 0).getD wNew

/-- Witness for C2 on a run that splits the bucket and doubles the
directory. -/
theorem eht_insert_find_roundtrip_witness :
    Inv id wS1 ∧ insertLoop id 2 wS1 1 101 = some wS2 ∧ find id wS2 1 = some 101 :=
  ⟨by decide, by decide,
    eht_insert_find_roundtrip id wS1 wS2 1 101 2 (by decide) (by decide)⟩

/-- Witness for C4 at a concrete construction. -/
theorem eht_invariant_preservation_witness :
    (1 : Nat) ≤ 1 ∧ Inv id (newEHT Nat Nat 1) :=
  ⟨by decide, (@eht_invariant_preservation Nat Nat _ id).1 1 (by decide)⟩

/-- Witness for C6: overwriting key 0. -/
theorem eht_insert_overwrite_witness :
    Inv id wNew ∧ insertLoop id 1 wNew 0 100 = some wS1 ∧
    insertLoop id 1 wS1 0 200 = some wT2 ∧
    (find id wT2 0 = some 200 ∧
      (∀ j, j < 2 ^ wT2.global_depth →
        ((bkt wT2 (dirGet wT2 j)).list_.filter (fun p => p.1 = 0)).length ≤ 1)) :=
  ⟨by decide, by decide, by decide,
    eht_insert_overwrite id wNew wS1 wT2 0 100 200 1 1 (by decide) (by decide) (by decide)⟩

/-- Witness for C7: removing key 0 from the one-entry table. -/
theorem eht_remove_spec_witness :
    Inv id wS1 ∧
    (((remove id wS1 0).1 = true ↔ (find id wS1 0).isSome = true) ∧
      find id (remove id wS1 0).2 0 = none) :=
  ⟨by decide,
    (eht_remove_spec id wS1 0 (by decide)).1,
    (eht_remove_spec id wS1 0 (by decide)).2.1⟩

/-- Witness for C8: inserting key 1 into the full one-entry table needs one
split; with `D = 1` the collision bound holds and fuel 2 suffices. -/
theorem eht_insert_terminates_witness :
    Inv id wS1 ∧
    (bkt wS1 (dirGet wS1 (indexOf id wS1 1))).list_.countP
        (fun p => decide (id p.1 % 2 ^ 1 = id 1 % 2 ^ 1 ∧ p.1 ≠ 1)) <
      wS1.bucket_size ∧
    (∃ s2, insertLoop id (1 + 1) wS1 1 101 = some s2) :=
  ⟨by decide, by decide,
    eht_insert_terminates id wS1 1 101 1 (by decide) (by decide)⟩

/-- Counterexample for C9 as stated: at construction, the initial bucket's
local depth is 0, not ≥ 1. -/
theorem initial_bucket_depth_not_one :
    ¬ (1 ≤ (bkt (newEHT Nat Nat 1) (dirGet (newEHT Nat Nat 1) 0)).depth_) := by decide

/-- Witness for the amended C9 at a concrete split. -/
theorem bucket_depth_amended_witness :
    (0 : Nat) < wS1.buckets.length ∧ redistributeBucket id wS1 0 = some wSplit ∧
    (1 ≤ (bkt wSplit 0).depth_ ∧ 1 ≤ (bkt wSplit wS1.buckets.length).depth_) :=
  ⟨by decide, by decide,
    (@bucket_depth_amended Nat Nat id).2 wS1 wSplit 0 (by decide) (by decide)⟩

/-- C5, evaluated at the failing input: starting from `bucket_size = 1`,
inserting key 0 and then key 1 (identity hash) performs one split, after
which the directory references two distinct buckets while `GetNumBuckets`
still returns 1 — the `num_buckets_` counter is initialised to 1 and never
updated by any code path. -/
theorem getNumBuckets_stale :
    insertLoop id 1 wNew 0 100 = some wS1 ∧
    insertLoop id 2 wS1 1 101 = some wS2 ∧
    wS2.dir.dedup.length = 2 ∧ getNumBuckets wS2 = 1 := by decide

end Bustub
